import Mathlib

/-!
Verification development for the ptstemmer repository (a Porter stemmer
for Portuguese written in Go).

Words are modelled as `List Char`, matching Go's `[]rune(word)` view.  All
string operations used by the source (`strings.HasSuffix`,
`strings.LastIndex`, `strings.Replace`, slicing `word[:lid]`) act on bytes
in Go, but every pattern involved is valid UTF-8, and an occurrence of a
valid UTF-8 string inside another always starts at a rune boundary, so the
byte-level operations coincide with their rune-level counterparts modelled
here.

The Go sources modelled are `porter_stemmer.go` (PorterStemmer,
NewPorterStemmer, isVowel, expandNasalisedVowels, contractNasalisedVowels,
r, rv, step1..step5, Stem) and `suffix_tree.go` (node, suffixTree, newNode,
newSuffixTree, Add, Contains, LongestSuffix).
-/

namespace Ptstemmer

/-- The vowel set loaded by `NewPorterStemmer` ("aeiouáéíóúâêô");
Go stores it in a `map[rune]bool`. -/
def vowels : List Char := "aeiouáéíóúâêô".data

/-- `isVowel`: membership in the vowel map. -/
def isVowel (c : Char) : Bool := vowels.contains c

/-- Fuel-indexed worker for `replaceAll`; structural recursion on the
fuel keeps the definition kernel-reducible.  With fuel at least the
length of `s` the fuel never runs out (see `replaceAllF_congr`). -/
def replaceAllF : Nat → List Char → List Char → List Char → List Char
  | 0, s, _, _ => s
  | fuel + 1, s, old, new =>
    match s with
    | [] => []
    | c :: rest =>
      if old ≠ [] ∧ old.isPrefixOf (c :: rest) then
        new ++ replaceAllF fuel ((c :: rest).drop old.length) old new
      else
        c :: replaceAllF fuel rest old new

/-- Model of Go `strings.Replace(s, old, new, -1)` for non-empty `old`:
leftmost non-overlapping occurrences of `old` are replaced by `new`. -/
def replaceAll (s old new : List Char) : List Char :=
  replaceAllF s.length s old new

/-- `expandNasalisedVowels`: replace "ã" by "a~" and "õ" by "o~". -/
def expandNasalisedVowels (w : List Char) : List Char :=
  replaceAll (replaceAll w "ã".data "a~".data) "õ".data "o~".data

/-- `contractNasalisedVowels`: replace "a~" by "ã" and "o~" by "õ". -/
def contractNasalisedVowels (w : List Char) : List Char :=
  replaceAll (replaceAll w "a~".data "ã".data) "o~".data "õ".data

/-- `r(word)`: scan left to right for the first position `i` with
`runes[i]` a vowel and `runes[i+1]` not a vowel; return `runes[i+2:]`,
or "" when the loop (over `i < len(runes)-1`) finds no such position. -/
def r : List Char → List Char
  | c0 :: c1 :: rest =>
    if isVowel c0 ∧ ¬ isVowel c1 then rest else r (c1 :: rest)
  | _ => []

/-- The first loop inside `rv`: scan for the first vowel, returning the
remainder after it (`runes[i+1:]`), or `none` when the scan fails. -/
def rvFindVowel : List Char → Option (List Char)
  | [] => none
  | c :: t => if isVowel c then some t else rvFindVowel t

/-- The second loop inside `rv`: scan for the first non-vowel, returning
the remainder after it (`runes[i+1:]`), or `none` when the scan fails. -/
def rvFindCons : List Char → Option (List Char)
  | [] => none
  | c :: t => if ¬ isVowel c then some t else rvFindCons t

/-- `rv(word)`: "" for words of fewer than 3 runes.  If `runes[1]` is not
a vowel, scan from position 2 for a vowel and return what follows it; on
scan failure control in the Go source falls through to the final
`return string(runes[3:])`.  Else if `runes[0]` and `runes[1]` are both
vowels, scan from position 2 for a non-vowel and return what follows it,
or "" on scan failure.  Otherwise return `runes[3:]`. -/
def rv : List Char → List Char
  | c0 :: c1 :: c2 :: rest =>
    if ¬ isVowel c1 then
      match rvFindVowel (c2 :: rest) with
      | some res => res
      | none => rest
    else if isVowel c0 ∧ isVowel c1 then
      match rvFindCons (c2 :: rest) with
      | some res => res
      | none => []
    else rest
  | _ => []

/-- Model of Go `strings.HasSuffix(w, s)`. -/
def hasSuffix (w s : List Char) : Bool := s.isSuffixOf w

/-- Worker for `lastIndex`: checks every position of the remainder
(ascending), remembering the last position where `s` is a prefix. -/
def lastIndexAux : List Char → List Char → Nat → Int → Int
  | rem, s, i, best =>
    let best' := if s.isPrefixOf rem then (i : Int) else best
    match rem with
    | [] => best'
    | _ :: t => lastIndexAux t s (i + 1) best'

/-- Model of Go `strings.LastIndex(w, s)`: the index of the last
occurrence of `s` in `w`, or -1 when there is none. -/
def lastIndex (w s : List Char) : Int := lastIndexAux w s 0 (-1)

/-- Model of the Go slice `w[:i]` as used after a `LastIndex` call.  For
`i ≥ 0` this is the first `i` runes.  Go panics when `i` is negative;
here the clamp `Int.toNat` yields `[]` instead, and the `Chk` variants
below together with the totality theorems show that the negative case is
never reached inside `Stem`. -/
def sliceTo (w : List Char) (i : Int) : List Char := w.take i.toNat

/-- Checked model of the Go slice `w[:i]`: `none` exactly when Go would
panic (negative index). -/
def sliceToChk (w : List Char) (i : Int) : Option (List Char) :=
  if i < 0 then none else some (w.take i.toNat)

/-! ### The suffix tree (suffix_tree.go)

Go's `suffixTree` is a bare pointer to the root `node`; here a tree is
identified with its root node.  The Go `map[rune]*node` of children is
modelled as an association list with unique keys, looked up by
`childFind` and updated by `childSet`. -/

/-- A node of the suffix tree: children, completed word, group. -/
inductive STNode : Type where
  | mk (children : List (Char × STNode)) (word : List Char) (group : Int) : STNode

/-- The children map of a node. -/
def STNode.children : STNode → List (Char × STNode)
  | .mk ch _ _ => ch

/-- The word completed at a node ("" when none). -/
def STNode.word : STNode → List Char
  | .mk _ w _ => w

/-- The group stored at a node (-1 when none). -/
def STNode.group : STNode → Int
  | .mk _ _ g => g

/-- `newNode()`: empty children, word "", group -1.  `newSuffixTree()`
wraps exactly one such node as the root. -/
def newNode : STNode := .mk [] [] (-1)

/-- Lookup in the children map: `n, ok := cnode.children[r]`. -/
def childFind : List (Char × STNode) → Char → Option STNode
  | [], _ => none
  | (c, n) :: rest, q => if c = q then some n else childFind rest q

/-- Assignment in the children map: `cnode.children[r] = t`. -/
def childSet : List (Char × STNode) → Char → STNode → List (Char × STNode)
  | [], q, m => [(q, m)]
  | (c, n) :: rest, q, m =>
    if c = q then (q, m) :: rest else (c, n) :: childSet rest q m

/-- Worker for `Add`: walk/extend the tree along the reversed rune list,
then record the full word and group at the final node. -/
def STNode.addRev : STNode → List Char → List Char → Int → STNode
  | .mk ch _ _, [], w, g => .mk ch w g
  | .mk ch wd gp, c :: rest, w, g =>
    match childFind ch c with
    | some n => .mk (childSet ch c (STNode.addRev n rest w g)) wd gp
    | none => .mk (childSet ch c (STNode.addRev newNode rest w g)) wd gp

/-- `Add(word, group)`: insert the word's runes in reverse order. -/
def STNode.add (t : STNode) (w : List Char) (g : Int) : STNode :=
  STNode.addRev t w.reverse w g

/-- Worker for `LongestSuffix`: follow child edges along the reversed
query word; whenever the reached node completes a word, record it as the
candidate if its rune count exceeds the best size so far; stop at the
first missing edge. -/
def STNode.lsAux : STNode → List Char → List Char → Int → Int → List Char × Int
  | _, [], cs, _, cg => (cs, cg)
  | t, q :: rest, cs, csz, cg =>
    match childFind t.children q with
    | none => (cs, cg)
    | some n =>
      if n.word ≠ [] ∧ (n.word.length : Int) > csz then
        STNode.lsAux n rest n.word n.word.length n.group
      else
        STNode.lsAux n rest cs csz cg

/-- `LongestSuffix(word)`: longest stored suffix matching the end of
`word` together with its group; `("", -1)` when none matches. -/
def STNode.longestSuffix (t : STNode) (w : List Char) : List Char × Int :=
  STNode.lsAux t w.reverse [] (-1) (-1)

/-- Build a tree by a sequence of `Add` calls starting from
`newSuffixTree()`; the chained `Add(..).Add(..)` calls in
`NewPorterStemmer` are exactly a left fold in source order. -/
def buildTree (es : List (List Char × Int)) : STNode :=
  es.foldl (fun t p => t.add p.1 p.2) newNode

/-! ### The four suffix tables of `NewPorterStemmer`, in source order. -/

/-- Suffixes checked in step 1, in the order they are added. -/
def step1Entries : List (List Char × Int) :=
  [("eza".data, 0), ("ezas".data, 0),
   ("ico".data, 0), ("ica".data, 0),
   ("icos".data, 0), ("icas".data, 0),
   ("ismo".data, 0), ("ismos".data, 0),
   ("ável".data, 0), ("ível".data, 0),
   ("ista".data, 0), ("istas".data, 0),
   ("oso".data, 0), ("osa".data, 0),
   ("osos".data, 0), ("osas".data, 0),
   ("amento".data, 0), ("amentos".data, 0),
   ("imento".data, 0), ("imentos".data, 0),
   ("adora".data, 0), ("ador".data, 0),
   ("aça~o".data, 0), ("adoras".data, 0),
   ("adores".data, 0), ("aço~es".data, 0),
   ("ante".data, 0), ("antes".data, 0),
   ("ância".data, 0),
   ("logía".data, 1), ("logías".data, 1),
   ("ución".data, 2), ("uciones".data, 2),
   ("ência".data, 3), ("ências".data, 3),
   ("amente".data, 4),
   ("mente".data, 5),
   ("idade".data, 6), ("idades".data, 6),
   ("iva".data, 7), ("ivo".data, 7),
   ("ivas".data, 7), ("ivos".data, 7),
   ("ira".data, 8), ("iras".data, 8)]

/-- Suffixes checked in step 2, in the order they are added. -/
def step2Entries : List (List Char × Int) :=
  [("ada".data, 0), ("ida".data, 0),
   ("ia".data, 0), ("aria".data, 0),
   ("eria".data, 0), ("iria".data, 0),
   ("ará".data, 0), ("ara".data, 0),
   ("erá".data, 0), ("era".data, 0),
   ("irá".data, 0), ("ava".data, 0),
   ("asse".data, 0), ("esse".data, 0),
   ("isse".data, 0), ("aste".data, 0),
   ("este".data, 0), ("iste".data, 0),
   ("ei".data, 0), ("arei".data, 0),
   ("erei".data, 0), ("irei".data, 0),
   ("am".data, 0), ("iam".data, 0),
   ("ariam".data, 0), ("eriam".data, 0),
   ("iriam".data, 0), ("aram".data, 0),
   ("eram".data, 0), ("iram".data, 0),
   ("avam".data, 0), ("em".data, 0),
   ("arem".data, 0), ("erem".data, 0),
   ("irem".data, 0), ("assem".data, 0),
   ("essem".data, 0), ("issem".data, 0),
   ("ado".data, 0), ("ido".data, 0),
   ("ando".data, 0), ("endo".data, 0),
   ("indo".data, 0), ("ara~o".data, 0),
   ("era~o".data, 0), ("ira~o".data, 0),
   ("ar".data, 0), ("er".data, 0),
   ("ir".data, 0), ("as".data, 0),
   ("adas".data, 0), ("idas".data, 0),
   ("ias".data, 0), ("arias".data, 0),
   ("erias".data, 0), ("irias".data, 0),
   ("arás".data, 0), ("aras".data, 0),
   ("erás".data, 0), ("eras".data, 0),
   ("irás".data, 0), ("avas".data, 0),
   ("es".data, 0), ("ardes".data, 0),
   ("erdes".data, 0), ("irdes".data, 0),
   ("ares".data, 0), ("eres".data, 0),
   ("ires".data, 0), ("asses".data, 0),
   ("esses".data, 0), ("isses".data, 0),
   ("astes".data, 0), ("estes".data, 0),
   ("istes".data, 0), ("is".data, 0),
   ("ais".data, 0), ("eis".data, 0),
   ("íeis".data, 0), ("aríeis".data, 0),
   ("eríeis".data, 0), ("iríeis".data, 0),
   ("áreis".data, 0), ("areis".data, 0),
   ("éreis".data, 0), ("ereis".data, 0),
   ("íreis".data, 0), ("ireis".data, 0),
   ("ásseis".data, 0), ("ésseis".data, 0),
   ("ísseis".data, 0), ("áveis".data, 0),
   ("ados".data, 0), ("idos".data, 0),
   ("ámos".data, 0), ("amos".data, 0),
   ("íamos".data, 0), ("aríamos".data, 0),
   ("eríamos".data, 0), ("iríamos".data, 0),
   ("áramos".data, 0), ("éramos".data, 0),
   ("íramos".data, 0), ("ávamos".data, 0),
   ("emos".data, 0), ("aremos".data, 0),
   ("eremos".data, 0), ("iremos".data, 0),
   ("ássemos".data, 0), ("êssemos".data, 0),
   ("íssemos".data, 0), ("imos".data, 0),
   ("armos".data, 0), ("ermos".data, 0),
   ("irmos".data, 0), ("eu".data, 0),
   ("iu".data, 0), ("ou".data, 0),
   ("ira".data, 0), ("iras".data, 0)]

/-- Suffixes checked in step 4, in the order they are added. -/
def step4Entries : List (List Char × Int) :=
  [("os".data, 0), ("a".data, 0), ("i".data, 0),
   ("o".data, 0), ("á".data, 0), ("í".data, 0),
   ("ó".data, 0)]

/-- Suffixes checked in step 5, in the order they are added. -/
def step5Entries : List (List Char × Int) :=
  [("e".data, 0), ("é".data, 0), ("ê".data, 0)]

/-- `ps.step1SuffixTree` as built by `NewPorterStemmer`. -/
def step1SuffixTree : STNode := buildTree step1Entries

/-- `ps.step2SuffixTree` as built by `NewPorterStemmer`. -/
def step2SuffixTree : STNode := buildTree step2Entries

/-- `ps.step4SuffixTree` as built by `NewPorterStemmer`. -/
def step4SuffixTree : STNode := buildTree step4Entries

/-- `ps.step5SuffixTree` as built by `NewPorterStemmer`. -/
def step5SuffixTree : STNode := buildTree step5Entries

/-! ### The five pipeline steps.

The Go step functions are methods of `*PorterStemmer`; the receiver only
supplies the four immutable trees and the vowel set, which are top-level
definitions here.  The `rv` argument of each Go step is named `rvp` to
avoid shadowing the function `rv`. -/

/-- `step1(word, r1, r2, rv)`: standard-suffix removal; dispatch on the
group of the longest known suffix of `word`. -/
def step1 (word r1 r2 rvp : List Char) : List Char × Bool :=
  let sg := step1SuffixTree.longestSuffix word
  let suffix := sg.1
  if suffix = [] then (word, false)
  else if sg.2 = 0 then
    if hasSuffix r2 suffix then (sliceTo word (lastIndex word suffix), true)
    else (word, false)
  else if sg.2 = 1 then
    if hasSuffix r2 suffix then
      (sliceTo word (lastIndex word suffix) ++ "log".data, true)
    else (word, false)
  else if sg.2 = 2 then
    if hasSuffix r2 suffix then
      (sliceTo word (lastIndex word suffix) ++ "u".data, true)
    else (word, false)
  else if sg.2 = 3 then
    if hasSuffix r2 suffix then
      (sliceTo word (lastIndex word suffix) ++ "ente".data, true)
    else (word, false)
  else if sg.2 = 4 then
    let p :=
      if hasSuffix r1 suffix then (sliceTo word (lastIndex word suffix), true)
      else (word, false)
    let res := p.1
    let mod := p.2
    if hasSuffix r2 ("iv".data ++ suffix) then
      let res1 := sliceTo res (lastIndex res "iv".data)
      if hasSuffix r2 ("ativ".data ++ suffix) then
        (sliceTo res1 (lastIndex res1 "at".data), mod)
      else (res1, mod)
    else if hasSuffix r2 ("os".data ++ suffix) then
      (sliceTo res (lastIndex res "os".data), mod)
    else if hasSuffix r2 ("ic".data ++ suffix) then
      (sliceTo res (lastIndex res "ic".data), mod)
    else if hasSuffix r2 ("ad".data ++ suffix) then
      (sliceTo res (lastIndex res "ad".data), mod)
    else (res, mod)
  else if sg.2 = 5 then
    if hasSuffix r2 ("ante".data ++ suffix) then
      (sliceTo word (lastIndex word ("ante".data ++ suffix)), true)
    else if hasSuffix r2 ("avel".data ++ suffix) then
      (sliceTo word (lastIndex word ("avel".data ++ suffix)), true)
    else if hasSuffix r2 ("ível".data ++ suffix) then
      (sliceTo word (lastIndex word ("ível".data ++ suffix)), true)
    else if hasSuffix r2 suffix then
      (sliceTo word (lastIndex word suffix), true)
    else (word, false)
  else if sg.2 = 6 then
    if hasSuffix r2 ("abil".data ++ suffix) then
      (sliceTo word (lastIndex word ("abil".data ++ suffix)), true)
    else if hasSuffix r2 ("ic".data ++ suffix) then
      (sliceTo word (lastIndex word ("ic".data ++ suffix)), true)
    else if hasSuffix r2 ("iv".data ++ suffix) then
      (sliceTo word (lastIndex word ("iv".data ++ suffix)), true)
    else if hasSuffix r2 suffix then
      (sliceTo word (lastIndex word suffix), true)
    else (word, false)
  else if sg.2 = 7 then
    if hasSuffix r2 ("at".data ++ suffix) then
      (sliceTo word (lastIndex word ("at".data ++ suffix)), true)
    else if hasSuffix r2 suffix then
      (sliceTo word (lastIndex word suffix), true)
    else (word, false)
  else if sg.2 = 8 then
    if hasSuffix rvp suffix then
      if hasSuffix word ("e".data ++ suffix) then
        (sliceTo word (lastIndex word suffix) ++ "ir".data, true)
      else (word, false)
    else (word, false)
  else (word, false)

/-- `step2(word, r1, r2, rv)`: verb-suffix removal; the tree is queried
against RV, the deletion is applied to the word. -/
def step2 (word r1 r2 rvp : List Char) : List Char × Bool :=
  let sg := step2SuffixTree.longestSuffix rvp
  let suffix := sg.1
  if suffix = [] then (word, false)
  else (sliceTo word (lastIndex word suffix), true)

/-- `step3(word, r1, r2, rv)`: delete a trailing 'i' when the word ends
in "ci" and RV ends in "i".  The Go slice `word[:len(word)-1]` removes
the final one-byte rune 'i'. -/
def step3 (word r1 r2 rvp : List Char) : List Char × Bool :=
  if hasSuffix word "ci".data ∧ hasSuffix rvp "i".data then
    (word.dropLast, true)
  else (word, false)

/-- `step4(word, r1, r2, rv)`: residual-suffix removal; the tree is
queried against RV, the deletion is applied to the word. -/
def step4 (word r1 r2 rvp : List Char) : List Char × Bool :=
  let sg := step4SuffixTree.longestSuffix rvp
  let suffix := sg.1
  if suffix = [] then (word, false)
  else (sliceTo word (lastIndex word suffix), true)

/-- `step5(word, r1, r2, rv)`: final e/é/ê removal with the gu/ci
special cases, and the cedilla rewrite when no suffix matches. -/
def step5 (word r1 r2 rvp : List Char) : List Char × Bool :=
  let sg := step5SuffixTree.longestSuffix rvp
  let suffix := sg.1
  if suffix = [] then
    if hasSuffix word "ç".data then
      (sliceTo word (lastIndex word "ç".data) ++ "c".data, true)
    else (word, false)
  else if hasSuffix rvp ("u".data ++ suffix) ∧
          hasSuffix word ("gu".data ++ suffix) then
    (sliceTo word (lastIndex word ("u".data ++ suffix)), true)
  else if hasSuffix rvp ("i".data ++ suffix) ∧
          hasSuffix word ("ci".data ++ suffix) then
    (sliceTo word (lastIndex word ("i".data ++ suffix)), true)
  else
    (sliceTo word (lastIndex word suffix), true)

/-- `Stem(word)`: the full pipeline.  Mirrors the Go control flow: step 1
always; step 2 only when step 1 did not modify; regions recomputed when
the 1/2 phase modified; then step 3 (if modified) or step 4 (if not);
regions recomputed when the 3/4 phase modified; step 5 always; finally
nasalised vowels are contracted. -/
def Stem (word : List Char) : List Char :=
  let stem0 := expandNasalisedVowels word
  let r1a := r stem0
  let r2a := r r1a
  let rva := rv stem0
  let s1 := step1 stem0 r1a r2a rva
  let s12 := if s1.2 then s1 else step2 s1.1 r1a r2a rva
  let regsB :=
    if s12.2 then (r s12.1, r (r s12.1), rv s12.1) else (r1a, r2a, rva)
  let s34 :=
    if s12.2 then step3 s12.1 regsB.1 regsB.2.1 regsB.2.2
    else step4 s12.1 regsB.1 regsB.2.1 regsB.2.2
  let regsC :=
    if s34.2 then (r s34.1, r (r s34.1), rv s34.1) else regsB
  let s5 := step5 s34.1 regsC.1 regsC.2.1 regsC.2.2
  contractNasalisedVowels s5.1

/-- `Stem` on Go strings (a Go string is its sequence of runes). -/
def StemStr (s : String) : String := ⟨Stem s.data⟩

/-! ### Proof-support view of the suffix tree -/

/-- Follow child edges from a node along a path of characters. -/
def findPath : STNode → List Char → Option STNode
  | t, [] => some t
  | t, c :: rest =>
    match childFind t.children c with
    | some n => findPath n rest
    | none => none

/-- The terminal information at a path: the completed word and group of
the node reached, provided the node completes a word. -/
def infoAt (t : STNode) (p : List Char) : Option (List Char × Int) :=
  (findPath t p).bind (fun n => if n.word = [] then none else some (n.word, n.group))

/-- The group attached to the last registration of `w` in an entry
list — `Add` overwrites, so the last insertion for a given suffix wins. -/
def lastGroup (es : List (List Char × Int)) (w : List Char) : Option Int :=
  (es.reverse.find? (fun p => p.1 == w)).map (fun p => p.2)

/-! ### Panic-faithful (`Chk`) variants of the pipeline

Go slicing `word[:lid]` panics when `lid` is negative, which can only
come from a failed `strings.LastIndex`.  The `Chk` functions mirror the
step functions exactly, with `none` exactly where Go would panic; the
totality theorems show `StemChk` always succeeds and agrees with
`Stem`. -/

/-- `step1` with Go's panic on a negative slice index made explicit. -/
def step1Chk (word r1 r2 rvp : List Char) : Option (List Char × Bool) :=
  let sg := step1SuffixTree.longestSuffix word
  let suffix := sg.1
  if suffix = [] then some (word, false)
  else if sg.2 = 0 then
    if hasSuffix r2 suffix then
      (sliceToChk word (lastIndex word suffix)).map (fun u => (u, true))
    else some (word, false)
  else if sg.2 = 1 then
    if hasSuffix r2 suffix then
      (sliceToChk word (lastIndex word suffix)).map (fun u => (u ++ "log".data, true))
    else some (word, false)
  else if sg.2 = 2 then
    if hasSuffix r2 suffix then
      (sliceToChk word (lastIndex word suffix)).map (fun u => (u ++ "u".data, true))
    else some (word, false)
  else if sg.2 = 3 then
    if hasSuffix r2 suffix then
      (sliceToChk word (lastIndex word suffix)).map (fun u => (u ++ "ente".data, true))
    else some (word, false)
  else if sg.2 = 4 then
    let p0 : Option (List Char × Bool) :=
      if hasSuffix r1 suffix then
        (sliceToChk word (lastIndex word suffix)).map (fun u => (u, true))
      else some (word, false)
    p0.bind (fun p =>
      let res := p.1
      let mod := p.2
      if hasSuffix r2 ("iv".data ++ suffix) then
        (sliceToChk res (lastIndex res "iv".data)).bind (fun res1 =>
          if hasSuffix r2 ("ativ".data ++ suffix) then
            (sliceToChk res1 (lastIndex res1 "at".data)).map (fun res2 => (res2, mod))
          else some (res1, mod))
      else if hasSuffix r2 ("os".data ++ suffix) then
        (sliceToChk res (lastIndex res "os".data)).map (fun u => (u, mod))
      else if hasSuffix r2 ("ic".data ++ suffix) then
        (sliceToChk res (lastIndex res "ic".data)).map (fun u => (u, mod))
      else if hasSuffix r2 ("ad".data ++ suffix) then
        (sliceToChk res (lastIndex res "ad".data)).map (fun u => (u, mod))
      else some (res, mod))
  else if sg.2 = 5 then
    if hasSuffix r2 ("ante".data ++ suffix) then
      (sliceToChk word (lastIndex word ("ante".data ++ suffix))).map (fun u => (u, true))
    else if hasSuffix r2 ("avel".data ++ suffix) then
      (sliceToChk word (lastIndex word ("avel".data ++ suffix))).map (fun u => (u, true))
    else if hasSuffix r2 ("ível".data ++ suffix) then
      (sliceToChk word (lastIndex word ("ível".data ++ suffix))).map (fun u => (u, true))
    else if hasSuffix r2 suffix then
      (sliceToChk word (lastIndex word suffix)).map (fun u => (u, true))
    else some (word, false)
  else if sg.2 = 6 then
    if hasSuffix r2 ("abil".data ++ suffix) then
      (sliceToChk word (lastIndex word ("abil".data ++ suffix))).map (fun u => (u, true))
    else if hasSuffix r2 ("ic".data ++ suffix) then
      (sliceToChk word (lastIndex word ("ic".data ++ suffix))).map (fun u => (u, true))
    else if hasSuffix r2 ("iv".data ++ suffix) then
      (sliceToChk word (lastIndex word ("iv".data ++ suffix))).map (fun u => (u, true))
    else if hasSuffix r2 suffix then
      (sliceToChk word (lastIndex word suffix)).map (fun u => (u, true))
    else some (word, false)
  else if sg.2 = 7 then
    if hasSuffix r2 ("at".data ++ suffix) then
      (sliceToChk word (lastIndex word ("at".data ++ suffix))).map (fun u => (u, true))
    else if hasSuffix r2 suffix then
      (sliceToChk word (lastIndex word suffix)).map (fun u => (u, true))
    else some (word, false)
  else if sg.2 = 8 then
    if hasSuffix rvp suffix then
      if hasSuffix word ("e".data ++ suffix) then
        (sliceToChk word (lastIndex word suffix)).map (fun u => (u ++ "ir".data, true))
      else some (word, false)
    else some (word, false)
  else some (word, false)

/-- `step2` with Go's panic on a negative slice index made explicit. -/
def step2Chk (word r1 r2 rvp : List Char) : Option (List Char × Bool) :=
  let sg := step2SuffixTree.longestSuffix rvp
  let suffix := sg.1
  if suffix = [] then some (word, false)
  else (sliceToChk word (lastIndex word suffix)).map (fun u => (u, true))

/-- `step3` never slices at a `LastIndex` result; it is total as in Go
(the guard guarantees the word is non-empty). -/
def step3Chk (word r1 r2 rvp : List Char) : Option (List Char × Bool) :=
  some (step3 word r1 r2 rvp)

/-- `step4` with Go's panic on a negative slice index made explicit. -/
def step4Chk (word r1 r2 rvp : List Char) : Option (List Char × Bool) :=
  let sg := step4SuffixTree.longestSuffix rvp
  let suffix := sg.1
  if suffix = [] then some (word, false)
  else (sliceToChk word (lastIndex word suffix)).map (fun u => (u, true))

/-- `step5` with Go's panic on a negative slice index made explicit. -/
def step5Chk (word r1 r2 rvp : List Char) : Option (List Char × Bool) :=
  let sg := step5SuffixTree.longestSuffix rvp
  let suffix := sg.1
  if suffix = [] then
    if hasSuffix word "ç".data then
      (sliceToChk word (lastIndex word "ç".data)).map (fun u => (u ++ "c".data, true))
    else some (word, false)
  else if hasSuffix rvp ("u".data ++ suffix) ∧
          hasSuffix word ("gu".data ++ suffix) then
    (sliceToChk word (lastIndex word ("u".data ++ suffix))).map (fun u => (u, true))
  else if hasSuffix rvp ("i".data ++ suffix) ∧
          hasSuffix word ("ci".data ++ suffix) then
    (sliceToChk word (lastIndex word ("i".data ++ suffix))).map (fun u => (u, true))
  else
    (sliceToChk word (lastIndex word suffix)).map (fun u => (u, true))

/-- `Stem` with Go's panics made explicit: `none` exactly when some
slice in the executed path would panic. -/
def StemChk (word : List Char) : Option (List Char) :=
  let stem0 := expandNasalisedVowels word
  let r1a := r stem0
  let r2a := r r1a
  let rva := rv stem0
  (step1Chk stem0 r1a r2a rva).bind (fun s1 =>
  (if s1.2 then some s1 else step2Chk s1.1 r1a r2a rva).bind (fun s12 =>
  (let regsB := if s12.2 then (r s12.1, r (r s12.1), rv s12.1) else (r1a, r2a, rva)
   (if s12.2 then step3Chk s12.1 regsB.1 regsB.2.1 regsB.2.2
    else step4Chk s12.1 regsB.1 regsB.2.1 regsB.2.2).bind (fun s34 =>
   let regsC := if s34.2 then (r s34.1, r (r s34.1), rv s34.1) else regsB
   (step5Chk s34.1 regsC.1 regsC.2.1 regsC.2.2).map (fun s5 =>
   contractNasalisedVowels s5.1)))))

/-! ### Instrumented pipeline (for the orchestration claims)

`stemInstr` performs exactly the computation of `Stem` while logging, for
each step that is attempted, the step number, the word it receives and
the three regions passed to it, plus the number of region
recomputations. -/

/-- One attempted step inside a `Stem` call: its number, the word it was
given and the three regions passed alongside. -/
structure StemQuery where
  num : Nat
  qword : List Char
  reg1 : List Char
  reg2 : List Char
  regv : List Char

/-- Result of an instrumented `Stem` call. -/
structure StemRun where
  result : List Char
  log : List StemQuery
  recomputations : Nat

/-- `Stem` with a log of attempted steps and region recomputations. -/
def stemInstr (word : List Char) : StemRun :=
  let stem0 := expandNasalisedVowels word
  let r1a := r stem0
  let r2a := r r1a
  let rva := rv stem0
  let s1 := step1 stem0 r1a r2a rva
  let s12 := if s1.2 then s1 else step2 s1.1 r1a r2a rva
  let log12 :=
    if s1.2 then [⟨1, stem0, r1a, r2a, rva⟩]
    else [⟨1, stem0, r1a, r2a, rva⟩, ⟨2, s1.1, r1a, r2a, rva⟩]
  let regsB :=
    if s12.2 then (r s12.1, r (r s12.1), rv s12.1) else (r1a, r2a, rva)
  let rec1 := if s12.2 then 1 else 0
  let s34 :=
    if s12.2 then step3 s12.1 regsB.1 regsB.2.1 regsB.2.2
    else step4 s12.1 regsB.1 regsB.2.1 regsB.2.2
  let log34 :=
    log12 ++ [⟨if s12.2 then 3 else 4, s12.1, regsB.1, regsB.2.1, regsB.2.2⟩]
  let regsC := if s34.2 then (r s34.1, r (r s34.1), rv s34.1) else regsB
  let rec2 := if s34.2 then 1 else 0
  let s5 := step5 s34.1 regsC.1 regsC.2.1 regsC.2.2
  let log5 := log34 ++ [⟨5, s34.1, regsC.1, regsC.2.1, regsC.2.2⟩]
  ⟨contractNasalisedVowels s5.1, log5, rec1 + rec2⟩

/-! ### Nasal-pair measure (for the length claim) -/

/-- Number of positions holding `'~'` directly preceded by `'a'` or
`'o'`; exactly the amount by which `contractNasalisedVowels` shortens a
word. -/
def nasalPairs : List Char → Nat
  | a :: b :: rest =>
    (if (a = 'a' ∨ a = 'o') ∧ b = '~' then 1 else 0) + nasalPairs (b :: rest)
  | _ => 0

/-- Per-character view of nasal expansion (proof support): 'ã' becomes
"a~", 'õ' becomes "o~", every other character is kept. -/
def nasalExpandChar (c : Char) : List Char :=
  if c = 'ã' then ['a', '~'] else if c = 'õ' then ['o', '~'] else [c]

/-- Per-character view of a word after the "a~" → "ã" contraction pass
(proof support): only 'õ' is still in expanded form. -/
def nasalKeepO (c : Char) : List Char :=
  if c = 'õ' then ['o', '~'] else [c]

/-- Number of positions holding `'~'` directly preceded by the vowel
`v` (proof support; `nasalPairs` is the sum over v ∈ {a, o}). -/
def vPairs (v : Char) : List Char → Nat
  | a :: b :: rest =>
    (if a = v ∧ b = '~' then 1 else 0) + vPairs v (b :: rest)
  | _ => 0

/-! ## Lemmas -/

/-- Fuel irrelevance for `replaceAllF`: any fuel covering the length of
the input gives the same answer. -/
theorem replaceAllF_congr (old new : List Char) :
    ∀ f₁ f₂ s, s.length ≤ f₁ → s.length ≤ f₂ →
      replaceAllF f₁ s old new = replaceAllF f₂ s old new := by
  intro f₁
  induction f₁ with
  | zero =>
    intro f₂ s h₁ _
    have hs : s = [] := List.eq_nil_of_length_eq_zero (Nat.le_zero.mp h₁)
    subst hs
    cases f₂ <;> simp [replaceAllF]
  | succ f ih =>
    intro f₂ s h₁ h₂
    cases s with
    | nil => cases f₂ <;> simp [replaceAllF]
    | cons c rest =>
      cases f₂ with
      | zero => simp at h₂
      | succ g =>
        simp only [replaceAllF]
        by_cases h : old ≠ [] ∧ old.isPrefixOf (c :: rest)
        · simp only [if_pos h]
          have hol : 1 ≤ old.length := by
            cases old with
            | nil => exact absurd rfl h.1
            | cons _ _ => simp
          have hlen : ((c :: rest).drop old.length).length ≤ f := by
            simp only [List.length_drop, List.length_cons]
            simp only [List.length_cons] at h₁
            omega
          have hlen2 : ((c :: rest).drop old.length).length ≤ g := by
            simp only [List.length_drop, List.length_cons]
            simp only [List.length_cons] at h₂
            omega
          rw [ih g _ hlen hlen2]
        · simp only [if_neg h]
          have hl1 : rest.length ≤ f := by
            simp only [List.length_cons] at h₁; omega
          have hl2 : rest.length ≤ g := by
            simp only [List.length_cons] at h₂; omega
          rw [ih g rest hl1 hl2]

/-- `replaceAll` on the empty list. -/
theorem replaceAll_nil (old new : List Char) : replaceAll [] old new = [] := rfl

/-- The defining unfolding of `replaceAll` on a cons cell. -/
theorem replaceAll_cons (c : Char) (rest old new : List Char) :
    replaceAll (c :: rest) old new =
      if old ≠ [] ∧ old.isPrefixOf (c :: rest) then
        new ++ replaceAll ((c :: rest).drop old.length) old new
      else c :: replaceAll rest old new := by
  by_cases h : old ≠ [] ∧ old.isPrefixOf (c :: rest)
  · have hol : 1 ≤ old.length := by
      cases old with
      | nil => exact absurd rfl h.1
      | cons _ _ => simp
    have hlen : ((c :: rest).drop old.length).length ≤ rest.length := by
      rw [List.length_drop]
      simp only [List.length_cons]
      omega
    rw [if_pos h]
    show replaceAllF (c :: rest).length (c :: rest) old new = _
    simp only [List.length_cons, replaceAllF, if_pos h]
    congr 1
    exact replaceAllF_congr old new rest.length _ _ hlen (Nat.le_refl _)
  · rw [if_neg h]
    show replaceAllF (c :: rest).length (c :: rest) old new = _
    simp only [List.length_cons, replaceAllF, if_neg h]
    rfl

/-- `hasSuffix` decides the suffix relation. -/
theorem hasSuffix_iff {w s : List Char} : hasSuffix w s = true ↔ s <:+ w :=
  List.isSuffixOf_iff_suffix

/-- `r` always returns a suffix of its argument. -/
theorem r_suffix : ∀ w : List Char, r w <:+ w
  | [] => by simp [r]
  | [c] => by simp [r]
  | c0 :: c1 :: rest => by
    rw [r]
    by_cases h : isVowel c0 ∧ ¬ isVowel c1
    · simp only [if_pos h]
      exact (List.suffix_cons c1 rest).trans (List.suffix_cons c0 (c1 :: rest))
    · simp only [if_neg h]
      exact (r_suffix (c1 :: rest)).trans (List.suffix_cons c0 (c1 :: rest))

/-- A successful vowel scan returns a suffix of the scanned list. -/
theorem rvFindVowel_suffix : ∀ w res, rvFindVowel w = some res → res <:+ w := by
  intro w
  induction w with
  | nil => intro res h; simp [rvFindVowel] at h
  | cons c t ih =>
    intro res h
    rw [rvFindVowel] at h
    by_cases hv : isVowel c
    · simp only [if_pos hv] at h
      cases h
      exact List.suffix_cons c t
    · simp only [if_neg hv] at h
      exact (ih res h).trans (List.suffix_cons c t)

/-- A successful non-vowel scan returns a suffix of the scanned list. -/
theorem rvFindCons_suffix : ∀ w res, rvFindCons w = some res → res <:+ w := by
  intro w
  induction w with
  | nil => intro res h; simp [rvFindCons] at h
  | cons c t ih =>
    intro res h
    rw [rvFindCons] at h
    by_cases hv : ¬ isVowel c
    · simp only [if_pos hv] at h
      cases h
      exact List.suffix_cons c t
    · simp only [if_neg hv] at h
      exact (ih res h).trans (List.suffix_cons c t)

/-- `rv` always returns a suffix of its argument. -/
theorem rv_suffix (w : List Char) : rv w <:+ w := by
  match w with
  | [] => simp [rv]
  | [c] => simp [rv]
  | [c0, c1] => simp [rv]
  | c0 :: c1 :: c2 :: rest =>
    rw [rv]
    have hrest : rest <:+ c0 :: c1 :: c2 :: rest :=
      (List.suffix_cons c2 rest).trans
        ((List.suffix_cons c1 (c2 :: rest)).trans (List.suffix_cons c0 (c1 :: c2 :: rest)))
    have htail : c2 :: rest <:+ c0 :: c1 :: c2 :: rest :=
      (List.suffix_cons c1 (c2 :: rest)).trans (List.suffix_cons c0 (c1 :: c2 :: rest))
    by_cases h1 : ¬ isVowel c1
    · simp only [if_pos h1]
      cases hfv : rvFindVowel (c2 :: rest) with
      | some res => exact (rvFindVowel_suffix _ _ hfv).trans htail
      | none => exact hrest
    · simp only [if_neg h1]
      by_cases h2 : isVowel c0 ∧ isVowel c1
      · simp only [if_pos h2]
        cases hfc : rvFindCons (c2 :: rest) with
        | some res => exact (rvFindCons_suffix _ _ hfc).trans htail
        | none => exact List.nil_suffix
      · simp only [if_neg h2]
        exact hrest

/-- One-step unfolding of `lastIndexAux` on a cons cell. -/
theorem lastIndexAux_cons (c : Char) (t s : List Char) (i : Nat) (best : Int) :
    lastIndexAux (c :: t) s i best =
      lastIndexAux t s (i + 1)
        (if s.isPrefixOf (c :: t) then (i : Int) else best) := by
  rw [lastIndexAux]

/-- Value of `lastIndexAux` on the empty remainder. -/
theorem lastIndexAux_nil (s : List Char) (i : Nat) (best : Int) :
    lastIndexAux [] s i best = if s.isPrefixOf [] then (i : Int) else best := by
  rw [lastIndexAux]

/-- If the pattern is longer than the remainder, `lastIndexAux` never
updates its accumulator. -/
theorem lastIndexAux_long (s : List Char) :
    ∀ rem i best, rem.length < s.length → lastIndexAux rem s i best = best := by
  intro rem
  induction rem with
  | nil =>
    intro i best h
    simp only [List.length_nil] at h
    have hnp : s.isPrefixOf ([] : List Char) = false := by
      cases hsp : s.isPrefixOf ([] : List Char)
      · rfl
      · have := (List.isPrefixOf_iff_prefix.mp hsp).length_le
        simp only [List.length_nil, Nat.le_zero] at this
        omega
    rw [lastIndexAux_nil, hnp]
    simp
  | cons c t ih =>
    intro i best h
    simp only [List.length_cons] at h
    have hnp : s.isPrefixOf (c :: t) = false := by
      cases hsp : s.isPrefixOf (c :: t)
      · rfl
      · have := (List.isPrefixOf_iff_prefix.mp hsp).length_le
        simp only [List.length_cons] at this
        omega
    rw [lastIndexAux_cons, hnp]
    simp only [Bool.false_eq_true, if_false]
    exact ih (i + 1) best (by omega)

/-- When the non-empty pattern is a suffix of the remainder, the last
matching position is exactly at distance `length s` from the end. -/
theorem lastIndexAux_of_suffix (s : List Char) (hs : s ≠ []) :
    ∀ rem i best, s <:+ rem →
      lastIndexAux rem s i best = (i : Int) + ((rem.length - s.length : Nat) : Int) := by
  intro rem
  induction rem with
  | nil =>
    intro i best h
    have := List.suffix_nil.mp h
    exact absurd this hs
  | cons c t ih =>
    intro i best h
    rw [lastIndexAux_cons]
    by_cases heq : s.length = (c :: t).length
    · have hseq : s = c :: t := h.eq_of_length heq
      have hp : s.isPrefixOf (c :: t) = true := by
        rw [List.isPrefixOf_iff_prefix, hseq]
      rw [hp]
      simp only [if_true]
      have ht : t.length < s.length := by
        simp only [List.length_cons] at heq; omega
      rw [lastIndexAux_long s t (i + 1) i ht]
      have hz : (c :: t).length - s.length = 0 := by
        simp only [List.length_cons]; omega
      rw [hz]
      simp
    · have hst : s <:+ t := by
        rcases List.suffix_cons_iff.mp h with h1 | h1
        · exact absurd (by rw [h1]) heq
        · exact h1
      rw [ih (i + 1) _ hst]
      have hl := hst.length_le
      have h1 : ((t.length - s.length : Nat) : Int) = (t.length : Int) - s.length := by
        omega
      have h2 : (((c :: t).length - s.length : Nat) : Int) =
          ((c :: t).length : Int) - s.length := by
        have := h.length_le
        omega
      rw [h1, h2]
      simp only [List.length_cons]
      push_cast
      ring

/-- `lastIndex` on a trailing occurrence. -/
theorem lastIndex_of_suffix {w s : List Char} (hs : s ≠ []) (h : s <:+ w) :
    lastIndex w s = ((w.length - s.length : Nat) : Int) := by
  rw [lastIndex, lastIndexAux_of_suffix s hs w 0 (-1) h]
  simp

/-- Chopping a trailing occurrence: when `s` is a non-empty suffix of
`w = u ++ s`, the Go slice `word[:LastIndex(word, suffix)]` is `u`. -/
theorem sliceTo_lastIndex_of_suffix {w s u : List Char} (hs : s ≠ [])
    (h : w = u ++ s) : sliceTo w (lastIndex w s) = u := by
  have hsuf : s <:+ w := ⟨u, h.symm⟩
  rw [sliceTo, lastIndex_of_suffix hs hsuf]
  have : ((((w.length - s.length : Nat) : Int)).toNat) = w.length - s.length := by
    simp
  rw [this, h]
  have hlen : (u ++ s).length - s.length = u.length := by
    simp
  rw [hlen, List.take_left]

/-- If no vowel–non-vowel transition exists, `r` returns "". -/
theorem r_eq_nil_of_no_transition :
    ∀ w : List Char,
      (∀ i, (h : i + 1 < w.length) → ¬(isVowel w[i] ∧ ¬ isVowel w[i + 1])) →
      r w = [] := by
  intro w
  induction w with
  | nil => intro _; simp [r]
  | cons c0 tail ih =>
    intro hno
    cases tail with
    | nil => simp [r]
    | cons c1 rest =>
      rw [r]
      have h0 : ¬(isVowel c0 ∧ ¬ isVowel c1) := by
        have := hno 0 (by simp)
        simpa using this
      rw [if_neg h0]
      apply ih
      intro i h
      have := hno (i + 1) (by simpa using Nat.succ_lt_succ h)
      simpa using this

/-- `r` returns the remainder two places after the first (leftmost)
vowel–non-vowel transition. -/
theorem r_eq_drop_of_first_transition :
    ∀ (w : List Char) (i : Nat), (h : i + 1 < w.length) →
      isVowel w[i] → ¬ isVowel w[i + 1] →
      (∀ j, j < i → (hj : j + 1 < w.length) → ¬(isVowel w[j] ∧ ¬ isVowel w[j + 1])) →
      r w = w.drop (i + 2) := by
  intro w
  induction w with
  | nil => intro i h; simp at h
  | cons c0 tail ih =>
    intro i h hv hnv hmin
    cases tail with
    | nil => simp at h
    | cons c1 rest =>
      cases i with
      | zero =>
        simp only [List.getElem_cons_zero] at hv
        simp only [List.getElem_cons_succ, List.getElem_cons_zero] at hnv
        rw [r, if_pos ⟨hv, hnv⟩]
        simp
      | succ k =>
        have h0 : ¬(isVowel c0 ∧ ¬ isVowel c1) := by
          have := hmin 0 (Nat.succ_pos k) (by simp)
          simpa using this
        rw [r, if_neg h0]
        have hlen : k + 1 < (c1 :: rest).length := by
          simp only [List.length_cons] at h ⊢
          omega
        have hv' : isVowel (c1 :: rest)[k] := by
          simpa using hv
        have hnv' : ¬ isVowel (c1 :: rest)[k + 1] := by
          simpa using hnv
        have hmin' : ∀ j, j < k → (hj : j + 1 < (c1 :: rest).length) →
            ¬(isVowel (c1 :: rest)[j] ∧ ¬ isVowel (c1 :: rest)[j + 1]) := by
          intro j hj hjl
          have := hmin (j + 1) (Nat.succ_lt_succ hj)
            (by simp only [List.length_cons] at hjl ⊢; omega)
          simpa using this
        rw [ih k hlen hv' hnv' hmin']
        simp [List.drop_succ_cons]

/-! ### Suffix-tree lemmas -/

/-- Lookup after assignment in the children map. -/
theorem childFind_childSet (ch : List (Char × STNode)) (c q : Char) (m : STNode) :
    childFind (childSet ch c m) q = if c = q then some m else childFind ch q := by
  induction ch with
  | nil =>
    simp only [childSet, childFind]
  | cons p rest ih =>
    obtain ⟨c', n'⟩ := p
    simp only [childSet]
    by_cases h1 : c' = c
    · subst h1
      simp only [if_pos rfl, childFind]
      by_cases h2 : c' = q
      · simp [h2]
      · simp [h2]
    · simp only [if_neg h1, childFind]
      by_cases h2 : c' = q
      · subst h2
        have hcq : ¬ c = c' := fun h => h1 h.symm
        simp [hcq]
      · simp [h2, ih]

/-- `findPath` on a cons path. -/
theorem findPath_cons (t : STNode) (c : Char) (p : List Char) :
    findPath t (c :: p) =
      match childFind t.children c with
      | some n => findPath n p
      | none => none := rfl

/-- `findPath` on a cons path, in `Option.bind` form. -/
theorem findPath_cons_bind (t : STNode) (c : Char) (p : List Char) :
    findPath t (c :: p) =
      (childFind t.children c).bind (fun n => findPath n p) := by
  rw [findPath_cons]
  cases childFind t.children c <;> simp

/-- `findPath` splits over path concatenation. -/
theorem findPath_append (t : STNode) (p p' : List Char) :
    findPath t (p ++ p') = (findPath t p).bind (fun n => findPath n p') := by
  induction p generalizing t with
  | nil => simp [findPath]
  | cons c rest ih =>
    simp only [List.cons_append, findPath_cons]
    cases hc : childFind t.children c with
    | some n => simpa using ih n
    | none => simp

/-- Reachability of paths is closed under prefixes. -/
theorem findPath_isSome_of_prefix {t : STNode} {p p' : List Char}
    (hp : p <+: p') (h : (findPath t p').isSome) : (findPath t p).isSome := by
  obtain ⟨z, hz⟩ := hp
  subst hz
  rw [findPath_append] at h
  cases hfp : findPath t p with
  | some n => simp
  | none => rw [hfp] at h; simp at h

/-- `findPath` on the fresh node made by `newNode`. -/
theorem findPath_newNode (p : List Char) :
    findPath newNode p = if p = [] then some newNode else none := by
  cases p with
  | nil => rfl
  | cons c rest => simp [findPath_cons, newNode, STNode.children, childFind]

/-- The fresh node stores no terminal information anywhere. -/
theorem infoAt_newNode (p : List Char) : infoAt newNode p = none := by
  rw [infoAt, findPath_newNode]
  by_cases h : p = []
  · simp [h, newNode, STNode.word]
  · simp [h]

/-- Unfolding of `addRev` on a cons path: the subtree hanging off the
first character (a fresh node when absent) receives the rest of the
insertion, and the children map is updated accordingly. -/
theorem addRev_cons (ch : List (Char × STNode)) (wd : List Char) (gp : Int)
    (c : Char) (rest w : List Char) (g : Int) :
    STNode.addRev (.mk ch wd gp) (c :: rest) w g =
      .mk (childSet ch c
        (STNode.addRev ((childFind ch c).getD newNode) rest w g)) wd gp := by
  cases hcf : childFind ch c <;> simp [STNode.addRev, hcf]

/-- Effect of `addRev` on terminal information: the node at exactly the
inserted (reversed) path now stores the new word and group; every other
path keeps its old information. -/
theorem infoAt_addRev (w : List Char) (hw : w ≠ []) (g : Int) :
    ∀ (rev : List Char) (t : STNode) (p : List Char),
      infoAt (STNode.addRev t rev w g) p =
        if p = rev then some (w, g) else infoAt t p := by
  intro rev
  induction rev with
  | nil =>
    intro t p
    cases t with
    | mk ch wd gp =>
      cases p with
      | nil =>
        simp [STNode.addRev, infoAt, findPath, STNode.word, STNode.group, hw]
      | cons c p' =>
        have h1 : STNode.addRev (.mk ch wd gp) [] w g = .mk ch w g := rfl
        rw [h1, infoAt, infoAt, findPath_cons, findPath_cons]
        simp [STNode.children]
  | cons c rest ih =>
    intro t p
    cases t with
    | mk ch wd gp =>
      rw [addRev_cons]
      cases p with
      | nil =>
        rw [if_neg (by simp)]
        simp [infoAt, findPath, STNode.word, STNode.group]
      | cons c' p' =>
        have hr : infoAt (STNode.mk ch wd gp) (c :: p') =
            infoAt ((childFind ch c).getD newNode) p' := by
          rw [infoAt, findPath_cons_bind]
          simp only [STNode.children]
          cases hcf : childFind ch c with
          | some n => simp only [Option.getD_some]; rfl
          | none => simp [Option.getD_none, infoAt_newNode]
        rw [infoAt, findPath_cons_bind]
        simp only [STNode.children, childFind_childSet]
        by_cases hc : c = c'
        · subst hc
          rw [if_pos rfl]
          simp only [Option.some_bind]
          have hih := ih ((childFind ch c).getD newNode) p'
          show infoAt (STNode.addRev ((childFind ch c).getD newNode) rest w g) p' = _
          rw [hih]
          by_cases hp : p' = rest
          · simp [hp]
          · rw [if_neg hp, if_neg (show ¬ (c :: p' = c :: rest) by simp [hp]), hr]
        · rw [if_neg hc,
            if_neg (show ¬ (c' :: p' = c :: rest) by
              intro hh; injection hh with h1 _; exact hc h1.symm)]
          rw [infoAt, findPath_cons_bind]
          simp only [STNode.children]

/-- Effect of `addRev` on reachability: exactly the prefixes of the
inserted path become reachable in addition to what was already
reachable. -/
theorem findPath_addRev_isSome (w : List Char) (g : Int) :
    ∀ (rev : List Char) (t : STNode) (p : List Char),
      (findPath (STNode.addRev t rev w g) p).isSome ↔
        ((findPath t p).isSome ∨ p <+: rev) := by
  intro rev
  induction rev with
  | nil =>
    intro t p
    cases t with
    | mk ch wd gp =>
      have h1 : STNode.addRev (.mk ch wd gp) [] w g = .mk ch w g := rfl
      rw [h1]
      cases p with
      | nil => simp [findPath]
      | cons c p' =>
        rw [findPath_cons, findPath_cons]
        simp [STNode.children, List.prefix_nil]
  | cons c rest ih =>
    intro t p
    cases t with
    | mk ch wd gp =>
      rw [addRev_cons]
      cases p with
      | nil => simp [findPath]
      | cons c' p' =>
        rw [findPath_cons_bind, findPath_cons_bind]
        simp only [STNode.children, childFind_childSet]
        by_cases hc : c = c'
        · subst hc
          rw [if_pos rfl]
          simp only [Option.some_bind]
          have hpre : (c :: p' <+: c :: rest) ↔ (p' <+: rest) := by
            simp [List.cons_prefix_cons]
          rw [hpre]
          have hih := ih ((childFind ch c).getD newNode) p'
          rw [hih]
          cases hcf : childFind ch c with
          | some n => simp only [Option.getD_some, Option.some_bind]
          | none =>
            simp only [Option.getD_none, findPath_newNode, Option.none_bind]
            constructor
            · rintro (hp | hp)
              · by_cases hz : p' = []
                · exact Or.inr (hz ▸ List.nil_prefix)
                · rw [if_neg hz] at hp; simp at hp
              · exact Or.inr hp
            · rintro (hp | hp)
              · simp at hp
              · exact Or.inr hp
        · rw [if_neg hc]
          have hpre : ¬ (c' :: p' <+: c :: rest) := by
            rw [List.cons_prefix_cons]
            rintro ⟨h1, _⟩
            exact hc h1.symm
          simp [hpre]

/-- `lastGroup` over a snoc: the newest registration wins. -/
theorem lastGroup_append_singleton (es : List (List Char × Int))
    (e : List Char × Int) (q : List Char) :
    lastGroup (es ++ [e]) q = if e.1 = q then some e.2 else lastGroup es q := by
  rw [lastGroup, List.reverse_append]
  simp only [List.reverse_singleton, List.singleton_append, List.find?_cons]
  by_cases h : e.1 = q
  · have hb : (e.1 == q) = true := by simp [h]
    rw [if_pos h]
    simp [hb]
  · have hb : (e.1 == q) = false := by simp [h]
    rw [if_neg h]
    simp [hb, lastGroup]

/-- `buildTree` over a snoc is one more `Add`. -/
theorem buildTree_append_singleton (es : List (List Char × Int))
    (e : List Char × Int) :
    buildTree (es ++ [e]) = (buildTree es).add e.1 e.2 := by
  simp [buildTree, List.foldl_append]

/-- First build invariant: the terminal information of the built tree at
path `p` is exactly the last registration of the word `p.reverse`. -/
theorem infoAt_buildTree (es : List (List Char × Int)) :
    (∀ e ∈ es, e.1 ≠ []) → ∀ p,
      infoAt (buildTree es) p =
        (lastGroup es p.reverse).map (fun g2 => (p.reverse, g2)) := by
  induction es using List.reverseRecOn with
  | nil =>
    intro _ p
    have hb : buildTree [] = newNode := rfl
    rw [hb, infoAt_newNode, lastGroup]
    simp
  | append_singleton es e ih =>
    intro hne p
    have hne' : ∀ x ∈ es, x.1 ≠ [] := fun x hx => hne x (by simp [hx])
    have hee : e.1 ≠ [] := hne e (by simp)
    rw [buildTree_append_singleton, STNode.add,
      infoAt_addRev e.1 hee e.2 e.1.reverse (buildTree es) p,
      lastGroup_append_singleton]
    by_cases hp : p = e.1.reverse
    · have h1 : e.1 = p.reverse := by rw [hp, List.reverse_reverse]
      rw [if_pos hp, if_pos h1]
      simp [h1]
    · have h1 : ¬ (e.1 = p.reverse) := by
        intro hh
        exact hp (by rw [hh, List.reverse_reverse])
      rw [if_neg hp, if_neg h1, ih hne' p]

/-- Second build invariant: a path is reachable in the built tree iff it
is empty or a prefix of some registered word's reversal. -/
theorem findPath_buildTree_isSome (es : List (List Char × Int)) :
    ∀ p, (findPath (buildTree es) p).isSome ↔
      (p = [] ∨ ∃ e ∈ es, p <+: e.1.reverse) := by
  induction es using List.reverseRecOn with
  | nil =>
    intro p
    have hb : buildTree [] = newNode := rfl
    rw [hb, findPath_newNode]
    by_cases h : p = [] <;> simp [h]
  | append_singleton es e ih =>
    intro p
    rw [buildTree_append_singleton, STNode.add,
      findPath_addRev_isSome e.1 e.2 e.1.reverse (buildTree es) p, ih p]
    constructor
    · rintro ((h | ⟨x, hx, hpx⟩) | h)
      · exact Or.inl h
      · exact Or.inr ⟨x, by simp [hx], hpx⟩
      · exact Or.inr ⟨e, by simp, h⟩
    · rintro (h | ⟨x, hx, hpx⟩)
      · exact Or.inl (Or.inl h)
      · rcases List.mem_append.mp hx with hx | hx
        · exact Or.inl (Or.inr ⟨x, hx, hpx⟩)
        · rcases List.mem_singleton.mp hx with rfl
          exact Or.inr hpx

/-- A `lastGroup` hit names an actually registered pair. -/
theorem lastGroup_mem {es : List (List Char × Int)} {w : List Char} {g : Int}
    (h : lastGroup es w = some g) : (w, g) ∈ es := by
  rw [lastGroup] at h
  cases hf : List.find? (fun p => p.1 == w) es.reverse with
  | none => rw [hf] at h; simp at h
  | some e =>
    rw [hf] at h
    have hmem := List.mem_of_find?_eq_some hf
    have hkey := List.find?_some hf
    have h1 : e.1 = w := by simpa using hkey
    have h2 : e.2 = g := by simpa using h
    have : e = (w, g) := by
      cases e; simp_all
    rw [← this]
    exact List.mem_reverse.mp hmem

/-- Every registered word has a `lastGroup`. -/
theorem lastGroup_isSome_of_mem {es : List (List Char × Int)}
    {e : List Char × Int} (h : e ∈ es) : ∃ g, lastGroup es e.1 = some g := by
  rw [lastGroup]
  have hmem : e ∈ es.reverse := List.mem_reverse.mpr h
  have : (List.find? (fun p => p.1 == e.1) es.reverse).isSome := by
    rw [List.find?_isSome]
    exact ⟨e, hmem, by simp⟩
  cases hf : List.find? (fun p => p.1 == e.1) es.reverse with
  | none => rw [hf] at this; simp at this
  | some x => exact ⟨x.2, by simp⟩

/-- `lsAux` on the empty remainder. -/
theorem lsAux_nil (t : STNode) (cs : List Char) (csz cg : Int) :
    STNode.lsAux t [] cs csz cg = (cs, cg) := rfl

/-- One-step unfolding of `lsAux`. -/
theorem lsAux_cons (t : STNode) (q : Char) (rest cs : List Char) (csz cg : Int) :
    STNode.lsAux t (q :: rest) cs csz cg =
      match childFind t.children q with
      | none => (cs, cg)
      | some n =>
        if n.word ≠ [] ∧ (n.word.length : Int) > csz then
          STNode.lsAux n rest n.word n.word.length n.group
        else
          STNode.lsAux n rest cs csz cg := rfl

/-- `lsAux` stops at a missing edge. -/
theorem lsAux_cons_none {t : STNode} {q : Char} (rest cs : List Char)
    (csz cg : Int) (hcf : childFind t.children q = none) :
    STNode.lsAux t (q :: rest) cs csz cg = (cs, cg) := by
  rw [lsAux_cons, hcf]

/-- `lsAux` descends along an existing edge, updating the candidate when
the child completes a strictly longer word. -/
theorem lsAux_cons_some {t : STNode} {q : Char} {n : STNode}
    (rest cs : List Char) (csz cg : Int)
    (hcf : childFind t.children q = some n) :
    STNode.lsAux t (q :: rest) cs csz cg =
      if n.word ≠ [] ∧ (n.word.length : Int) > csz then
        STNode.lsAux n rest n.word n.word.length n.group
      else STNode.lsAux n rest cs csz cg := by
  rw [lsAux_cons, hcf]

/-- `findPath` extended by a single character. -/
theorem findPath_snoc (t : STNode) (p : List Char) (c : Char) :
    findPath t (p ++ [c]) =
      (findPath t p).bind (fun n => childFind n.children c) := by
  rw [findPath_append]
  cases findPath t p with
  | none => simp
  | some n =>
    simp only [Option.some_bind]
    rw [findPath_cons_bind]
    cases childFind n.children c <;> simp [findPath]

/-- An unreported path holds an empty word at its node. -/
theorem word_nil_of_infoAt_none {t : STNode} {p : List Char} {n : STNode}
    (hi : infoAt t p = none) (hf : findPath t p = some n) : n.word = [] := by
  rw [infoAt, hf, Option.some_bind] at hi
  by_cases hw : n.word = []
  · exact hw
  · rw [if_neg hw] at hi; simp at hi

/-- A reported path determines its node's word and group. -/
theorem word_of_infoAt_some {t : STNode} {p : List Char} {n : STNode}
    {w : List Char} {g : Int}
    (hi : infoAt t p = some (w, g)) (hf : findPath t p = some n) :
    n.word = w ∧ n.group = g ∧ w ≠ [] := by
  rw [infoAt, hf, Option.some_bind] at hi
  by_cases hw : n.word = []
  · rw [if_pos hw] at hi; simp at hi
  · rw [if_neg hw] at hi
    have h1 : n.word = w ∧ n.group = g := by
      have := Option.some.inj hi
      exact ⟨congrArg Prod.fst this, congrArg Prod.snd this⟩
    exact ⟨h1.1, h1.2, h1.1 ▸ hw⟩

/-- A reported path is reachable. -/
theorem findPath_isSome_of_infoAt_some {t : STNode} {p : List Char}
    {w : List Char} {g : Int} (hi : infoAt t p = some (w, g)) :
    (findPath t p).isSome := by
  rw [infoAt] at hi
  cases hf : findPath t p with
  | some n => simp
  | none => rw [hf] at hi; simp at hi

/-- Walk lemma, negative half: if no extension of the current path up to
the remaining input reports a word, the walk keeps its current best. -/
theorem lsAux_no_candidates (t0 : STNode) :
    ∀ (rem p0 : List Char) (n : STNode) (cs : List Char) (csz cg : Int),
      findPath t0 p0 = some n →
      (∀ k, 1 ≤ k → k ≤ rem.length → infoAt t0 (p0 ++ rem.take k) = none) →
      STNode.lsAux n rem cs csz cg = (cs, cg) := by
  intro rem
  induction rem with
  | nil => intro p0 n cs csz cg _ _; rfl
  | cons c rest ih =>
    intro p0 n cs csz cg hfp hnone
    cases hcf : childFind n.children c with
    | none => exact lsAux_cons_none rest cs csz cg hcf
    | some n' =>
      have hfp' : findPath t0 (p0 ++ [c]) = some n' := by
        rw [findPath_snoc, hfp, Option.some_bind, hcf]
      have h1 : infoAt t0 (p0 ++ [c]) = none := by
        have := hnone 1 (Nat.le_refl 1) (by simp)
        simpa using this
      have hw : n'.word = [] := word_nil_of_infoAt_none h1 hfp'
      rw [lsAux_cons_some rest cs csz cg hcf, if_neg (by simp [hw])]
      apply ih (p0 ++ [c]) n' cs csz cg hfp'
      intro k hk1 hk2
      have := hnone (k + 1) (by omega) (by simp; omega)
      rw [List.take_succ_cons] at this
      simpa [List.append_assoc] using this

/-- Walk lemma, positive half: if the deepest reported extension of the
current path sits at depth `K` of the remaining input, and every
candidate found so far is no longer than the current path, the walk
returns the word and group reported at depth `K`. -/
theorem lsAux_finds_deepest (t0 : STNode) (wK : List Char) (gK : Int)
    (hlen : ∀ p w2 g2, infoAt t0 p = some (w2, g2) → w2.length = p.length) :
    ∀ (rem p0 : List Char) (n : STNode) (cs : List Char) (csz cg : Int) (K : Nat),
      findPath t0 p0 = some n →
      1 ≤ K → K ≤ rem.length →
      infoAt t0 (p0 ++ rem.take K) = some (wK, gK) →
      (∀ k, K < k → k ≤ rem.length → infoAt t0 (p0 ++ rem.take k) = none) →
      csz < (p0.length : Int) + 1 →
      STNode.lsAux n rem cs csz cg = (wK, gK) := by
  intro rem
  induction rem with
  | nil =>
    intro p0 n cs csz cg K _ hK1 hK2 _ _ _
    simp at hK2
    omega
  | cons c rest ih =>
    intro p0 n cs csz cg K hfp hK1 hK2 hinfo hmax hcsz
    have htake : (c :: rest).take K = c :: rest.take (K - 1) := by
      cases K with
      | zero => omega
      | succ k0 => simp [List.take_succ_cons]
    have hreach : (findPath t0 (p0 ++ (c :: rest).take K)).isSome :=
      findPath_isSome_of_infoAt_some hinfo
    have hpfx : p0 ++ [c] <+: p0 ++ (c :: rest).take K := by
      rw [htake]
      refine List.prefix_append_right_inj p0 |>.mpr ?_
      exact ⟨rest.take (K - 1), rfl⟩
    have hreach1 : (findPath t0 (p0 ++ [c])).isSome :=
      findPath_isSome_of_prefix hpfx hreach
    rw [findPath_snoc, hfp, Option.some_bind] at hreach1
    cases hcf : childFind n.children c with
    | none => rw [hcf] at hreach1; simp at hreach1
    | some n' =>
      have hfp' : findPath t0 (p0 ++ [c]) = some n' := by
        rw [findPath_snoc, hfp, Option.some_bind, hcf]
      by_cases hK : K = 1
      · subst hK
        have hinfo1 : infoAt t0 (p0 ++ [c]) = some (wK, gK) := by
          simpa using hinfo
        obtain ⟨hw, hg, hwne⟩ := word_of_infoAt_some hinfo1 hfp'
        have hlw : wK.length = p0.length + 1 := by
          have := hlen _ _ _ hinfo1
          simpa using this
        have hcond : n'.word ≠ [] ∧ ((n'.word.length : Int) > csz) := by
          constructor
          · rw [hw]; exact hwne
          · rw [hw]
            rw [hlw]
            push_cast
            omega
        rw [lsAux_cons_some rest cs csz cg hcf, if_pos hcond, hw, hg]
        apply lsAux_no_candidates t0 rest (p0 ++ [c]) n' wK wK.length gK hfp'
        intro k hk1 hk2
        have := hmax (k + 1) (by omega) (by simp; omega)
        rw [List.take_succ_cons] at this
        simpa [List.append_assoc] using this
      · have hK2' : 2 ≤ K := by omega
        have hinfoK : infoAt t0 ((p0 ++ [c]) ++ rest.take (K - 1)) = some (wK, gK) := by
          rw [List.append_assoc]
          simpa [htake] using hinfo
        have hmax' : ∀ k, K - 1 < k → k ≤ rest.length →
            infoAt t0 ((p0 ++ [c]) ++ rest.take k) = none := by
          intro k hk1 hk2
          have := hmax (k + 1) (by omega) (by simp; omega)
          rw [List.take_succ_cons] at this
          simpa [List.append_assoc] using this
        have hKr1 : 1 ≤ K - 1 := by omega
        have hKr2 : K - 1 ≤ rest.length := by
          simp only [List.length_cons] at hK2; omega
        cases hinfo1 : infoAt t0 (p0 ++ [c]) with
        | none =>
          have hw : n'.word = [] := word_nil_of_infoAt_none hinfo1 hfp'
          rw [lsAux_cons_some rest cs csz cg hcf, if_neg (by simp [hw])]
          apply ih (p0 ++ [c]) n' cs csz cg (K - 1) hfp' hKr1 hKr2 hinfoK hmax'
          simp only [List.length_append, List.length_cons, List.length_nil]
          push_cast
          omega
        | some wg =>
          obtain ⟨w1, g1⟩ := wg
          obtain ⟨hw, hg, hwne⟩ := word_of_infoAt_some hinfo1 hfp'
          have hlw : w1.length = p0.length + 1 := by
            have := hlen _ _ _ hinfo1
            simpa using this
          have hcond : n'.word ≠ [] ∧ ((n'.word.length : Int) > csz) := by
            constructor
            · rw [hw]; exact hwne
            · rw [hw, hlw]
              push_cast
              omega
          rw [lsAux_cons_some rest cs csz cg hcf, if_pos hcond]
          apply ih (p0 ++ [c]) n' n'.word n'.word.length n'.group (K - 1)
            hfp' hKr1 hKr2 hinfoK hmax'
          rw [hw, hlw]
          simp only [List.length_append, List.length_cons, List.length_nil]
          push_cast
          omega

/-- Among the registered entries matching the end of `q` there is one of
maximum length. -/
theorem exists_longest_match :
    ∀ (es : List (List Char × Int)) (q : List Char) (e0 : List Char × Int),
      e0 ∈ es → e0.1 <:+ q →
      ∃ e ∈ es, e.1 <:+ q ∧ ∀ e2 ∈ es, e2.1 <:+ q → e2.1.length ≤ e.1.length := by
  intro es
  induction es with
  | nil => intro q e0 h0; simp at h0
  | cons e rest ih =>
    intro q e0 h0 hs0
    by_cases hr : ∃ x ∈ rest, x.1 <:+ q
    · obtain ⟨x0, hx0, hxs⟩ := hr
      obtain ⟨b, hbmem, hbs, hbmax⟩ := ih q x0 hx0 hxs
      by_cases he : e.1 <:+ q
      · by_cases hcmp : e.1.length ≤ b.1.length
        · refine ⟨b, by simp [hbmem], hbs, ?_⟩
          intro e2 h2 hs2
          rcases List.mem_cons.mp h2 with rfl | h2
          · exact hcmp
          · exact hbmax e2 h2 hs2
        · refine ⟨e, by simp, he, ?_⟩
          intro e2 h2 hs2
          rcases List.mem_cons.mp h2 with rfl | h2
          · exact Nat.le_refl _
          · exact Nat.le_trans (hbmax e2 h2 hs2) (by omega)
      · refine ⟨b, by simp [hbmem], hbs, ?_⟩
        intro e2 h2 hs2
        rcases List.mem_cons.mp h2 with rfl | h2
        · exact absurd hs2 he
        · exact hbmax e2 h2 hs2
    · have he : e.1 <:+ q := by
        rcases List.mem_cons.mp h0 with rfl | h0
        · exact hs0
        · exact absurd ⟨e0, h0, hs0⟩ hr
      refine ⟨e, by simp, he, ?_⟩
      intro e2 h2 hs2
      rcases List.mem_cons.mp h2 with rfl | h2
      · exact Nat.le_refl _
      · exact absurd ⟨e2, h2, hs2⟩ hr

/-- Full correctness of `LongestSuffix` over a built tree: the no-match
sentinel when no registered suffix matches the end of the query, and
otherwise the longest matching registered suffix with its most recently
registered group. -/
theorem longestSuffix_correct (es : List (List Char × Int)) (q : List Char)
    (hne : ∀ e ∈ es, e.1 ≠ []) :
    ((¬ ∃ e ∈ es, e.1 <:+ q) → (buildTree es).longestSuffix q = ([], -1)) ∧
    ((∃ e ∈ es, e.1 <:+ q) →
      ∃ s g, (buildTree es).longestSuffix q = (s, g) ∧ s <:+ q ∧
        (s, g) ∈ es ∧ lastGroup es s = some g ∧
        ∀ e ∈ es, e.1 <:+ q → e.1.length ≤ s.length) := by
  have hroot : findPath (buildTree es) [] = some (buildTree es) := rfl
  have hunf : (buildTree es).longestSuffix q =
      STNode.lsAux (buildTree es) q.reverse [] (-1) (-1) := rfl
  have hlen : ∀ p w2 g2, infoAt (buildTree es) p = some (w2, g2) →
      w2.length = p.length := by
    intro p w2 g2 hi
    rw [infoAt_buildTree es hne p] at hi
    cases hlg : lastGroup es p.reverse with
    | none => rw [hlg] at hi; simp at hi
    | some g3 =>
      rw [hlg] at hi
      simp only [Option.map_some'] at hi
      have : w2 = p.reverse := (congrArg Prod.fst (Option.some.inj hi)).symm
      rw [this, List.length_reverse]
  have hinfo_char : ∀ k, k ≤ q.reverse.length →
      ∀ w2 g2, infoAt (buildTree es) (q.reverse.take k) = some (w2, g2) →
      (w2, g2) ∈ es ∧ w2 <:+ q ∧ w2.length = k := by
    intro k hk w2 g2 hi
    rw [infoAt_buildTree es hne _] at hi
    cases hlg : lastGroup es (q.reverse.take k).reverse with
    | none => rw [hlg] at hi; simp at hi
    | some g3 =>
      rw [hlg] at hi
      simp only [Option.map_some'] at hi
      have hw : w2 = (q.reverse.take k).reverse :=
        (congrArg Prod.fst (Option.some.inj hi)).symm
      have hg : g2 = g3 := (congrArg Prod.snd (Option.some.inj hi)).symm
      subst hg
      have hmem : (w2, g2) ∈ es := lastGroup_mem (by rw [← hw] at hlg; exact hlg)
      have hsuf : w2 <:+ q := by
        rw [hw]
        have hpre : q.reverse.take k <+: q.reverse := List.take_prefix k q.reverse
        apply List.reverse_prefix.mp
        rw [List.reverse_reverse]
        exact hpre
      have hl : w2.length = k := by
        rw [hw, List.length_reverse, List.length_take]
        omega
      exact ⟨hmem, hsuf, hl⟩
  constructor
  · intro hno
    rw [hunf]
    apply lsAux_no_candidates (buildTree es) q.reverse [] (buildTree es)
      [] (-1) (-1) hroot
    intro k hk1 hk2
    simp only [List.nil_append]
    cases hi : infoAt (buildTree es) (q.reverse.take k) with
    | none => rfl
    | some wg =>
      obtain ⟨w2, g2⟩ := wg
      obtain ⟨hmem, hsuf, _⟩ := hinfo_char k hk2 w2 g2 hi
      exact absurd ⟨(w2, g2), hmem, hsuf⟩ hno
  · rintro ⟨e0, h0, hs0⟩
    obtain ⟨eb, hbmem, hbs, hbmax⟩ := exists_longest_match es q e0 h0 hs0
    obtain ⟨gb, hgb⟩ := lastGroup_isSome_of_mem hbmem
    have hK1 : 1 ≤ eb.1.length := by
      have := hne eb hbmem
      cases hh : eb.1 with
      | nil => exact absurd hh this
      | cons _ _ => simp [hh]
    have hK2 : eb.1.length ≤ q.reverse.length := by
      rw [List.length_reverse]
      exact hbs.length_le
    have htake : q.reverse.take eb.1.length = eb.1.reverse := by
      have hpre : eb.1.reverse <+: q.reverse := by
        rw [List.reverse_prefix]
        exact hbs
      have := List.prefix_iff_eq_take.mp hpre
      rw [List.length_reverse] at this
      exact this.symm
    have hinfoK : infoAt (buildTree es) ([] ++ q.reverse.take eb.1.length) =
        some (eb.1, gb) := by
      rw [List.nil_append, htake, infoAt_buildTree es hne _,
        List.reverse_reverse, hgb]
      simp
    have hmax : ∀ k, eb.1.length < k → k ≤ q.reverse.length →
        infoAt (buildTree es) ([] ++ q.reverse.take k) = none := by
      intro k hklt hkle
      rw [List.nil_append]
      cases hi : infoAt (buildTree es) (q.reverse.take k) with
      | none => rfl
      | some wg =>
        obtain ⟨w2, g2⟩ := wg
        obtain ⟨hmem, hsuf, hl⟩ := hinfo_char k hkle w2 g2 hi
        have h5 : w2.length ≤ eb.1.length := hbmax (w2, g2) hmem hsuf
        omega
    refine ⟨eb.1, gb, ?_, hbs, lastGroup_mem hgb, hgb,
      fun e he hse => hbmax e he hse⟩
    rw [hunf]
    exact lsAux_finds_deepest (buildTree es) eb.1 gb hlen q.reverse []
      (buildTree es) [] (-1) (-1) eb.1.length hroot hK1 hK2 hinfoK hmax
      (by simp)

/-- Consequence used when reasoning about the steps: a lookup result is
either empty or a genuine suffix of the query. -/
theorem longestSuffix_fst_suffix (es : List (List Char × Int))
    (hne : ∀ e ∈ es, e.1 ≠ []) (q : List Char) :
    ((buildTree es).longestSuffix q).1 = [] ∨
      (((buildTree es).longestSuffix q).1 <:+ q ∧
        ((buildTree es).longestSuffix q).1 ≠ []) := by
  by_cases hm : ∃ e ∈ es, e.1 <:+ q
  · obtain ⟨s, g, hres, hsuf, _, _, _⟩ := (longestSuffix_correct es q hne).2 hm
    by_cases hs : s = []
    · left; rw [hres, hs]
    · right
      rw [hres]
      exact ⟨hsuf, hs⟩
  · left
    rw [(longestSuffix_correct es q hne).1 hm]

/-- The step-1 tree lookup yields "" or a suffix of the query. -/
theorem step1Tree_fst_suffix (q : List Char) :
    (step1SuffixTree.longestSuffix q).1 = [] ∨
      ((step1SuffixTree.longestSuffix q).1 <:+ q ∧
        (step1SuffixTree.longestSuffix q).1 ≠ []) :=
  longestSuffix_fst_suffix step1Entries (by decide) q

/-- The step-2 tree lookup yields "" or a suffix of the query. -/
theorem step2Tree_fst_suffix (q : List Char) :
    (step2SuffixTree.longestSuffix q).1 = [] ∨
      ((step2SuffixTree.longestSuffix q).1 <:+ q ∧
        (step2SuffixTree.longestSuffix q).1 ≠ []) :=
  longestSuffix_fst_suffix step2Entries (by decide) q

/-- The step-4 tree lookup yields "" or a suffix of the query. -/
theorem step4Tree_fst_suffix (q : List Char) :
    (step4SuffixTree.longestSuffix q).1 = [] ∨
      ((step4SuffixTree.longestSuffix q).1 <:+ q ∧
        (step4SuffixTree.longestSuffix q).1 ≠ []) :=
  longestSuffix_fst_suffix step4Entries (by decide) q

/-- The step-5 tree lookup yields "" or a suffix of the query. -/
theorem step5Tree_fst_suffix (q : List Char) :
    (step5SuffixTree.longestSuffix q).1 = [] ∨
      ((step5SuffixTree.longestSuffix q).1 <:+ q ∧
        (step5SuffixTree.longestSuffix q).1 ≠ []) :=
  longestSuffix_fst_suffix step5Entries (by decide) q

/-- `sliceTo` at a nonnegative index is a plain `take`. -/
theorem sliceTo_coe (w : List Char) (n : Nat) :
    sliceTo w ((n : Nat) : Int) = w.take n := by
  simp [sliceTo]

/-- `hasSuffix` rewrites to the suffix relation (Bool form). -/
theorem hasSuffix_eq_true_iff {w s : List Char} :
    hasSuffix w s = true ↔ s <:+ w := hasSuffix_iff

/-- Exactness of `step2` when called with an RV region that is a
trailing substring of the word: the matched suffix is a trailing
substring of the word, `LastIndex` lands exactly at
`len(word) - len(suffix)`, and the step deletes exactly that trailing
occurrence. -/
theorem step2_exact (word r1 r2 rvp : List Char) (hrv : rvp <:+ word)
    (hs : (step2SuffixTree.longestSuffix rvp).1 ≠ []) :
    (step2SuffixTree.longestSuffix rvp).1 <:+ word ∧
    lastIndex word (step2SuffixTree.longestSuffix rvp).1 =
      ((word.length - (step2SuffixTree.longestSuffix rvp).1.length : Nat) : Int) ∧
    0 ≤ lastIndex word (step2SuffixTree.longestSuffix rvp).1 ∧
    step2 word r1 r2 rvp =
      (word.take (word.length - (step2SuffixTree.longestSuffix rvp).1.length),
        true) := by
  have hsfx : (step2SuffixTree.longestSuffix rvp).1 <:+ word := by
    rcases step2Tree_fst_suffix rvp with h | ⟨h, _⟩
    · exact absurd h hs
    · exact h.trans hrv
  have hli := lastIndex_of_suffix hs hsfx
  refine ⟨hsfx, hli, by rw [hli]; omega, ?_⟩
  rw [step2]
  simp only [if_neg hs]
  rw [hli, sliceTo_coe]

/-- Exactness of `step4` when called with an RV region that is a
trailing substring of the word. -/
theorem step4_exact (word r1 r2 rvp : List Char) (hrv : rvp <:+ word)
    (hs : (step4SuffixTree.longestSuffix rvp).1 ≠ []) :
    (step4SuffixTree.longestSuffix rvp).1 <:+ word ∧
    lastIndex word (step4SuffixTree.longestSuffix rvp).1 =
      ((word.length - (step4SuffixTree.longestSuffix rvp).1.length : Nat) : Int) ∧
    0 ≤ lastIndex word (step4SuffixTree.longestSuffix rvp).1 ∧
    step4 word r1 r2 rvp =
      (word.take (word.length - (step4SuffixTree.longestSuffix rvp).1.length),
        true) := by
  have hsfx : (step4SuffixTree.longestSuffix rvp).1 <:+ word := by
    rcases step4Tree_fst_suffix rvp with h | ⟨h, _⟩
    · exact absurd h hs
    · exact h.trans hrv
  have hli := lastIndex_of_suffix hs hsfx
  refine ⟨hsfx, hli, by rw [hli]; omega, ?_⟩
  rw [step4]
  simp only [if_neg hs]
  rw [hli, sliceTo_coe]

/-- Exactness of `step5` when called with an RV region that is a
trailing substring of the word and the tree reports a suffix: some
pattern `d` (the plain suffix, or "u"/"i" prepended in the gu/ci cases)
is a trailing substring of the word and the step deletes exactly its
trailing occurrence. -/
theorem step5_exact (word r1 r2 rvp : List Char) (hrv : rvp <:+ word)
    (hs : (step5SuffixTree.longestSuffix rvp).1 ≠ []) :
    (step5SuffixTree.longestSuffix rvp).1 <:+ word ∧
    ∃ d, (d = "u".data ++ (step5SuffixTree.longestSuffix rvp).1 ∨
          d = "i".data ++ (step5SuffixTree.longestSuffix rvp).1 ∨
          d = (step5SuffixTree.longestSuffix rvp).1) ∧
      d <:+ word ∧
      lastIndex word d = ((word.length - d.length : Nat) : Int) ∧
      0 ≤ lastIndex word d ∧
      step5 word r1 r2 rvp = (word.take (word.length - d.length), true) := by
  have hsfx : (step5SuffixTree.longestSuffix rvp).1 <:+ word := by
    rcases step5Tree_fst_suffix rvp with h | ⟨h, _⟩
    · exact absurd h hs
    · exact h.trans hrv
  refine ⟨hsfx, ?_⟩
  rw [step5]
  simp only [if_neg hs]
  by_cases hgu : hasSuffix rvp ("u".data ++ (step5SuffixTree.longestSuffix rvp).1) ∧
      hasSuffix word ("gu".data ++ (step5SuffixTree.longestSuffix rvp).1)
  · have hd : "u".data ++ (step5SuffixTree.longestSuffix rvp).1 <:+ word := by
      have h1 : "gu".data ++ (step5SuffixTree.longestSuffix rvp).1 <:+ word :=
        hasSuffix_iff.mp hgu.2
      have h2 : "u".data ++ (step5SuffixTree.longestSuffix rvp).1 <:+
          "gu".data ++ (step5SuffixTree.longestSuffix rvp).1 := by
        refine ⟨['g'], rfl⟩
      exact h2.trans h1
    have hdne : "u".data ++ (step5SuffixTree.longestSuffix rvp).1 ≠ [] := by simp
    have hli := lastIndex_of_suffix hdne hd
    refine ⟨_, Or.inl rfl, hd, hli, by rw [hli]; omega, ?_⟩
    rw [if_pos hgu, hli, sliceTo_coe]
  · rw [if_neg hgu]
    by_cases hci : hasSuffix rvp ("i".data ++ (step5SuffixTree.longestSuffix rvp).1) ∧
        hasSuffix word ("ci".data ++ (step5SuffixTree.longestSuffix rvp).1)
    · have hd : "i".data ++ (step5SuffixTree.longestSuffix rvp).1 <:+ word := by
        have h1 : "ci".data ++ (step5SuffixTree.longestSuffix rvp).1 <:+ word :=
          hasSuffix_iff.mp hci.2
        have h2 : "i".data ++ (step5SuffixTree.longestSuffix rvp).1 <:+
            "ci".data ++ (step5SuffixTree.longestSuffix rvp).1 := by
          refine ⟨['c'], rfl⟩
        exact h2.trans h1
      have hdne : "i".data ++ (step5SuffixTree.longestSuffix rvp).1 ≠ [] := by simp
      have hli := lastIndex_of_suffix hdne hd
      refine ⟨_, Or.inr (Or.inl rfl), hd, hli, by rw [hli]; omega, ?_⟩
      rw [if_pos hci, hli, sliceTo_coe]
    · rw [if_neg hci]
      have hli := lastIndex_of_suffix hs hsfx
      refine ⟨_, Or.inr (Or.inr rfl), hsfx, hli, by rw [hli]; omega, ?_⟩
      rw [hli, sliceTo_coe]

/-- Under the genuine region relation `r2 <:+ r1`, `step1` either flags
a modification or returns the word unchanged — in particular the
silent-rewrite paths of the "amente" case are unreachable. -/
theorem step1_modified_or_id (word r1 r2 rvp : List Char) (h12 : r2 <:+ r1) :
    (step1 word r1 r2 rvp).2 = true ∨ step1 word r1 r2 rvp = (word, false) := by
  have hsub : ∀ pre s : List Char, hasSuffix r2 (pre ++ s) = true →
      hasSuffix r1 s = true := by
    intro pre s h
    rw [hasSuffix_iff] at h ⊢
    exact (List.suffix_append pre s).trans (h.trans h12)
  simp only [step1]
  by_cases h0 : (step1SuffixTree.longestSuffix word).1 = []
  · rw [if_pos h0]; right; rfl
  rw [if_neg h0]
  by_cases hg0 : (step1SuffixTree.longestSuffix word).2 = 0
  · rw [if_pos hg0]
    by_cases hr : hasSuffix r2 (step1SuffixTree.longestSuffix word).1 = true
    · rw [if_pos hr]; left; rfl
    · rw [if_neg hr]; right; rfl
  rw [if_neg hg0]
  by_cases hg1 : (step1SuffixTree.longestSuffix word).2 = 1
  · rw [if_pos hg1]
    by_cases hr : hasSuffix r2 (step1SuffixTree.longestSuffix word).1 = true
    · rw [if_pos hr]; left; rfl
    · rw [if_neg hr]; right; rfl
  rw [if_neg hg1]
  by_cases hg2 : (step1SuffixTree.longestSuffix word).2 = 2
  · rw [if_pos hg2]
    by_cases hr : hasSuffix r2 (step1SuffixTree.longestSuffix word).1 = true
    · rw [if_pos hr]; left; rfl
    · rw [if_neg hr]; right; rfl
  rw [if_neg hg2]
  by_cases hg3 : (step1SuffixTree.longestSuffix word).2 = 3
  · rw [if_pos hg3]
    by_cases hr : hasSuffix r2 (step1SuffixTree.longestSuffix word).1 = true
    · rw [if_pos hr]; left; rfl
    · rw [if_neg hr]; right; rfl
  rw [if_neg hg3]
  by_cases hg4 : (step1SuffixTree.longestSuffix word).2 = 4
  · rw [if_pos hg4]
    by_cases hp : hasSuffix r1 (step1SuffixTree.longestSuffix word).1 = true
    · left
      rw [if_pos hp]
      split_ifs <;> rfl
    · rw [if_neg hp]
      by_cases hiv : hasSuffix r2 ("iv".data ++ (step1SuffixTree.longestSuffix word).1) = true
      · exact absurd (hsub "iv".data _ hiv) hp
      rw [if_neg hiv]
      by_cases hos : hasSuffix r2 ("os".data ++ (step1SuffixTree.longestSuffix word).1) = true
      · exact absurd (hsub "os".data _ hos) hp
      rw [if_neg hos]
      by_cases hic : hasSuffix r2 ("ic".data ++ (step1SuffixTree.longestSuffix word).1) = true
      · exact absurd (hsub "ic".data _ hic) hp
      rw [if_neg hic]
      by_cases had : hasSuffix r2 ("ad".data ++ (step1SuffixTree.longestSuffix word).1) = true
      · exact absurd (hsub "ad".data _ had) hp
      rw [if_neg had]
      right; rfl
  rw [if_neg hg4]
  by_cases hg5 : (step1SuffixTree.longestSuffix word).2 = 5
  · rw [if_pos hg5]
    split_ifs <;> first | (left; rfl) | (right; rfl)
  rw [if_neg hg5]
  by_cases hg6 : (step1SuffixTree.longestSuffix word).2 = 6
  · rw [if_pos hg6]
    split_ifs <;> first | (left; rfl) | (right; rfl)
  rw [if_neg hg6]
  by_cases hg7 : (step1SuffixTree.longestSuffix word).2 = 7
  · rw [if_pos hg7]
    split_ifs <;> first | (left; rfl) | (right; rfl)
  rw [if_neg hg7]
  by_cases hg8 : (step1SuffixTree.longestSuffix word).2 = 8
  · rw [if_pos hg8]
    split_ifs <;> first | (left; rfl) | (right; rfl)
  rw [if_neg hg8]
  right; rfl

/-- `step2` reports no modification only by returning the word as is. -/
theorem step2_modified_or_id (word r1 r2 rvp : List Char) :
    (step2 word r1 r2 rvp).2 = true ∨ step2 word r1 r2 rvp = (word, false) := by
  simp only [step2]
  by_cases h : (step2SuffixTree.longestSuffix rvp).1 = []
  · rw [if_pos h]; right; rfl
  · rw [if_neg h]; left; rfl

/-- `step3` reports no modification only by returning the word as is. -/
theorem step3_modified_or_id (word r1 r2 rvp : List Char) :
    (step3 word r1 r2 rvp).2 = true ∨ step3 word r1 r2 rvp = (word, false) := by
  simp only [step3]
  split_ifs <;> first | (left; rfl) | (right; rfl)

/-- `step4` reports no modification only by returning the word as is. -/
theorem step4_modified_or_id (word r1 r2 rvp : List Char) :
    (step4 word r1 r2 rvp).2 = true ∨ step4 word r1 r2 rvp = (word, false) := by
  simp only [step4]
  by_cases h : (step4SuffixTree.longestSuffix rvp).1 = []
  · rw [if_pos h]; right; rfl
  · rw [if_neg h]; left; rfl

/-- `step5` reports no modification only by returning the word as is. -/
theorem step5_modified_or_id (word r1 r2 rvp : List Char) :
    (step5 word r1 r2 rvp).2 = true ∨ step5 word r1 r2 rvp = (word, false) := by
  simp only [step5]
  split_ifs <;> first | (left; rfl) | (right; rfl)

/-- The checked slice agrees with the total model whenever the index is
non-negative, i.e. whenever Go would not panic. -/
theorem sliceToChk_of_nonneg {w : List Char} {i : Int} (h : 0 ≤ i) :
    sliceToChk w i = some (sliceTo w i) := by
  rw [sliceToChk, if_neg (by omega), sliceTo]

/-- `step2Chk` agrees with `step2` whenever RV is a trailing substring
of the word. -/
theorem step2Chk_eq (word r1 r2 rvp : List Char) (hrv : rvp <:+ word) :
    step2Chk word r1 r2 rvp = some (step2 word r1 r2 rvp) := by
  simp only [step2Chk, step2]
  by_cases h : (step2SuffixTree.longestSuffix rvp).1 = []
  · rw [if_pos h, if_pos h]
  · rw [if_neg h, if_neg h]
    have hsfx : (step2SuffixTree.longestSuffix rvp).1 <:+ word := by
      rcases step2Tree_fst_suffix rvp with h2 | ⟨h2, _⟩
      · exact absurd h2 h
      · exact h2.trans hrv
    have hnn : 0 ≤ lastIndex word (step2SuffixTree.longestSuffix rvp).1 := by
      rw [lastIndex_of_suffix h hsfx]; omega
    rw [sliceToChk_of_nonneg hnn]
    rfl

/-- `step4Chk` agrees with `step4` whenever RV is a trailing substring
of the word. -/
theorem step4Chk_eq (word r1 r2 rvp : List Char) (hrv : rvp <:+ word) :
    step4Chk word r1 r2 rvp = some (step4 word r1 r2 rvp) := by
  simp only [step4Chk, step4]
  by_cases h : (step4SuffixTree.longestSuffix rvp).1 = []
  · rw [if_pos h, if_pos h]
  · rw [if_neg h, if_neg h]
    have hsfx : (step4SuffixTree.longestSuffix rvp).1 <:+ word := by
      rcases step4Tree_fst_suffix rvp with h2 | ⟨h2, _⟩
      · exact absurd h2 h
      · exact h2.trans hrv
    have hnn : 0 ≤ lastIndex word (step4SuffixTree.longestSuffix rvp).1 := by
      rw [lastIndex_of_suffix h hsfx]; omega
    rw [sliceToChk_of_nonneg hnn]
    rfl

/-- `step5Chk` agrees with `step5` whenever RV is a trailing substring
of the word. -/
theorem step5Chk_eq (word r1 r2 rvp : List Char) (hrv : rvp <:+ word) :
    step5Chk word r1 r2 rvp = some (step5 word r1 r2 rvp) := by
  simp only [step5Chk, step5]
  by_cases h : (step5SuffixTree.longestSuffix rvp).1 = []
  · rw [if_pos h, if_pos h]
    by_cases hc : hasSuffix word "ç".data = true
    · rw [if_pos hc, if_pos hc]
      have hsfx : ("ç".data : List Char) <:+ word := hasSuffix_iff.mp hc
      have hnn : 0 ≤ lastIndex word "ç".data := by
        rw [lastIndex_of_suffix (by decide) hsfx]; omega
      rw [sliceToChk_of_nonneg hnn]
      rfl
    · rw [if_neg hc, if_neg hc]
  · rw [if_neg h, if_neg h]
    have hsfx : (step5SuffixTree.longestSuffix rvp).1 <:+ word := by
      rcases step5Tree_fst_suffix rvp with h2 | ⟨h2, _⟩
      · exact absurd h2 h
      · exact h2.trans hrv
    by_cases hgu : hasSuffix rvp ("u".data ++ (step5SuffixTree.longestSuffix rvp).1) = true ∧
        hasSuffix word ("gu".data ++ (step5SuffixTree.longestSuffix rvp).1) = true
    · rw [if_pos hgu, if_pos hgu]
      have hd : "u".data ++ (step5SuffixTree.longestSuffix rvp).1 <:+ word := by
        have hg : "gu".data ++ (step5SuffixTree.longestSuffix rvp).1 <:+ word :=
          hasSuffix_iff.mp hgu.2
        exact List.IsSuffix.trans ⟨['g'], rfl⟩ hg
      have hnn : 0 ≤ lastIndex word
          ("u".data ++ (step5SuffixTree.longestSuffix rvp).1) := by
        rw [lastIndex_of_suffix (by simp) hd]; omega
      rw [sliceToChk_of_nonneg hnn]
      rfl
    · rw [if_neg hgu, if_neg hgu]
      by_cases hci : hasSuffix rvp ("i".data ++ (step5SuffixTree.longestSuffix rvp).1) = true ∧
          hasSuffix word ("ci".data ++ (step5SuffixTree.longestSuffix rvp).1) = true
      · rw [if_pos hci, if_pos hci]
        have hd : "i".data ++ (step5SuffixTree.longestSuffix rvp).1 <:+ word := by
          have hg : "ci".data ++ (step5SuffixTree.longestSuffix rvp).1 <:+ word :=
            hasSuffix_iff.mp hci.2
          exact List.IsSuffix.trans ⟨['c'], rfl⟩ hg
        have hnn : 0 ≤ lastIndex word
            ("i".data ++ (step5SuffixTree.longestSuffix rvp).1) := by
          rw [lastIndex_of_suffix (by simp) hd]; omega
        rw [sliceToChk_of_nonneg hnn]
        rfl
      · rw [if_neg hci, if_neg hci]
        have hnn : 0 ≤ lastIndex word (step5SuffixTree.longestSuffix rvp).1 := by
          rw [lastIndex_of_suffix h hsfx]; omega
        rw [sliceToChk_of_nonneg hnn]
        rfl

/-- `step1Chk` agrees with `step1` whenever the regions stand in the
genuine relation `r2 <:+ r1 <:+ word`: every slice index produced along
the executed path is non-negative. -/
theorem step1Chk_eq (word r1 r2 rvp : List Char)
    (h1 : r1 <:+ word) (h12 : r2 <:+ r1) :
    step1Chk word r1 r2 rvp = some (step1 word r1 r2 rvp) := by
  have h2w : r2 <:+ word := h12.trans h1
  have hsub : ∀ pre s : List Char, hasSuffix r2 (pre ++ s) = true →
      hasSuffix r1 s = true := by
    intro pre s h
    rw [hasSuffix_iff] at h ⊢
    exact (List.suffix_append pre s).trans (h.trans h12)
  have hsliceG : ∀ (ww pat : List Char), pat ≠ [] → pat <:+ ww →
      sliceToChk ww (lastIndex ww pat) = some (sliceTo ww (lastIndex ww pat)) := by
    intro ww pat hne hp
    exact sliceToChk_of_nonneg (by rw [lastIndex_of_suffix hne hp]; omega)
  simp only [step1Chk, step1]
  generalize step1SuffixTree.longestSuffix word = sg
  obtain ⟨s, g⟩ := sg
  dsimp only
  by_cases h0 : s = []
  · rw [if_pos h0, if_pos h0]
  rw [if_neg h0, if_neg h0]
  have hr2slice : ∀ pat : List Char, pat ≠ [] → hasSuffix r2 pat = true →
      sliceToChk word (lastIndex word pat) =
        some (sliceTo word (lastIndex word pat)) := by
    intro pat hne hh
    exact hsliceG word pat hne ((hasSuffix_iff.mp hh).trans h2w)
  by_cases hg0 : g = 0
  · rw [if_pos hg0, if_pos hg0]
    by_cases hr : hasSuffix r2 s = true
    · rw [if_pos hr, if_pos hr, hr2slice s h0 hr]; rfl
    · rw [if_neg hr, if_neg hr]
  rw [if_neg hg0, if_neg hg0]
  by_cases hg1 : g = 1
  · rw [if_pos hg1, if_pos hg1]
    by_cases hr : hasSuffix r2 s = true
    · rw [if_pos hr, if_pos hr, hr2slice s h0 hr]; rfl
    · rw [if_neg hr, if_neg hr]
  rw [if_neg hg1, if_neg hg1]
  by_cases hg2 : g = 2
  · rw [if_pos hg2, if_pos hg2]
    by_cases hr : hasSuffix r2 s = true
    · rw [if_pos hr, if_pos hr, hr2slice s h0 hr]; rfl
    · rw [if_neg hr, if_neg hr]
  rw [if_neg hg2, if_neg hg2]
  by_cases hg3 : g = 3
  · rw [if_pos hg3, if_pos hg3]
    by_cases hr : hasSuffix r2 s = true
    · rw [if_pos hr, if_pos hr, hr2slice s h0 hr]; rfl
    · rw [if_neg hr, if_neg hr]
  rw [if_neg hg3, if_neg hg3]
  by_cases hg4 : g = 4
  · rw [if_pos hg4, if_pos hg4]
    by_cases hp : hasSuffix r1 s = true
    · have hsw : s <:+ word := (hasSuffix_iff.mp hp).trans h1
      rw [if_pos hp, if_pos hp, hsliceG word s h0 hsw]
      simp only [Option.map_some', Option.some_bind]
      obtain ⟨u, hu⟩ := hsw
      have hres : sliceTo word (lastIndex word s) = u :=
        sliceTo_lastIndex_of_suffix h0 hu.symm
      rw [hres]
      by_cases hiv : hasSuffix r2 ("iv".data ++ s) = true
      · have hivw : "iv".data ++ s <:+ word := (hasSuffix_iff.mp hiv).trans h2w
        obtain ⟨v, hv⟩ := hivw
        have huv : u = v ++ "iv".data := by
          have hstep : u ++ s = (v ++ "iv".data) ++ s := by
            rw [hu, List.append_assoc, hv]
          exact List.append_cancel_right hstep
        have hivu : ("iv".data : List Char) <:+ u := ⟨v, huv.symm⟩
        rw [if_pos hiv, if_pos hiv, hsliceG u "iv".data (by decide) hivu]
        simp only [Option.some_bind]
        have hres1 : sliceTo u (lastIndex u "iv".data) = v :=
          sliceTo_lastIndex_of_suffix (by decide) huv
        rw [hres1]
        by_cases hat : hasSuffix r2 ("ativ".data ++ s) = true
        · have hatw : "ativ".data ++ s <:+ word := (hasSuffix_iff.mp hat).trans h2w
          obtain ⟨t, ht⟩ := hatw
          have hvt : v = t ++ "at".data := by
            have hstep : (v ++ "iv".data) ++ s =
                ((t ++ "at".data) ++ "iv".data) ++ s := by
              calc (v ++ "iv".data) ++ s = v ++ ("iv".data ++ s) := by
                    rw [List.append_assoc]
                _ = word := hv
                _ = t ++ ("ativ".data ++ s) := ht.symm
                _ = ((t ++ "at".data) ++ "iv".data) ++ s := by
                    have hsplit : ("ativ".data : List Char) =
                        "at".data ++ "iv".data := rfl
                    rw [hsplit]
                    simp [List.append_assoc]
            exact List.append_cancel_right (List.append_cancel_right hstep)
          have hatv : ("at".data : List Char) <:+ v := ⟨t, hvt.symm⟩
          rw [if_pos hat, if_pos hat, hsliceG v "at".data (by decide) hatv]
          rfl
        · rw [if_neg hat, if_neg hat]
      · rw [if_neg hiv, if_neg hiv]
        by_cases hos : hasSuffix r2 ("os".data ++ s) = true
        · have hosw : "os".data ++ s <:+ word := (hasSuffix_iff.mp hos).trans h2w
          obtain ⟨v, hv⟩ := hosw
          have huv : u = v ++ "os".data := by
            have hstep : u ++ s = (v ++ "os".data) ++ s := by
              rw [hu, List.append_assoc, hv]
            exact List.append_cancel_right hstep
          rw [if_pos hos, if_pos hos,
            hsliceG u "os".data (by decide) ⟨v, huv.symm⟩]
          rfl
        rw [if_neg hos, if_neg hos]
        by_cases hic : hasSuffix r2 ("ic".data ++ s) = true
        · have hicw : "ic".data ++ s <:+ word := (hasSuffix_iff.mp hic).trans h2w
          obtain ⟨v, hv⟩ := hicw
          have huv : u = v ++ "ic".data := by
            have hstep : u ++ s = (v ++ "ic".data) ++ s := by
              rw [hu, List.append_assoc, hv]
            exact List.append_cancel_right hstep
          rw [if_pos hic, if_pos hic,
            hsliceG u "ic".data (by decide) ⟨v, huv.symm⟩]
          rfl
        rw [if_neg hic, if_neg hic]
        by_cases had : hasSuffix r2 ("ad".data ++ s) = true
        · have hadw : "ad".data ++ s <:+ word := (hasSuffix_iff.mp had).trans h2w
          obtain ⟨v, hv⟩ := hadw
          have huv : u = v ++ "ad".data := by
            have hstep : u ++ s = (v ++ "ad".data) ++ s := by
              rw [hu, List.append_assoc, hv]
            exact List.append_cancel_right hstep
          rw [if_pos had, if_pos had,
            hsliceG u "ad".data (by decide) ⟨v, huv.symm⟩]
          rfl
        rw [if_neg had, if_neg had]
    · rw [if_neg hp, if_neg hp]
      simp only [Option.some_bind]
      by_cases hiv : hasSuffix r2 ("iv".data ++ s) = true
      · exact absurd (hsub "iv".data s hiv) hp
      rw [if_neg hiv, if_neg hiv]
      by_cases hos : hasSuffix r2 ("os".data ++ s) = true
      · exact absurd (hsub "os".data s hos) hp
      rw [if_neg hos, if_neg hos]
      by_cases hic : hasSuffix r2 ("ic".data ++ s) = true
      · exact absurd (hsub "ic".data s hic) hp
      rw [if_neg hic, if_neg hic]
      by_cases had : hasSuffix r2 ("ad".data ++ s) = true
      · exact absurd (hsub "ad".data s had) hp
      rw [if_neg had, if_neg had]
  rw [if_neg hg4, if_neg hg4]
  by_cases hg5 : g = 5
  · rw [if_pos hg5, if_pos hg5]
    by_cases ha : hasSuffix r2 ("ante".data ++ s) = true
    · rw [if_pos ha, if_pos ha, hr2slice _ (by simp) ha]; rfl
    rw [if_neg ha, if_neg ha]
    by_cases hb : hasSuffix r2 ("avel".data ++ s) = true
    · rw [if_pos hb, if_pos hb, hr2slice _ (by simp) hb]; rfl
    rw [if_neg hb, if_neg hb]
    by_cases hc : hasSuffix r2 ("ível".data ++ s) = true
    · rw [if_pos hc, if_pos hc, hr2slice _ (by simp) hc]; rfl
    rw [if_neg hc, if_neg hc]
    by_cases hd : hasSuffix r2 s = true
    · rw [if_pos hd, if_pos hd, hr2slice s h0 hd]; rfl
    · rw [if_neg hd, if_neg hd]
  rw [if_neg hg5, if_neg hg5]
  by_cases hg6 : g = 6
  · rw [if_pos hg6, if_pos hg6]
    by_cases ha : hasSuffix r2 ("abil".data ++ s) = true
    · rw [if_pos ha, if_pos ha, hr2slice _ (by simp) ha]; rfl
    rw [if_neg ha, if_neg ha]
    by_cases hb : hasSuffix r2 ("ic".data ++ s) = true
    · rw [if_pos hb, if_pos hb, hr2slice _ (by simp) hb]; rfl
    rw [if_neg hb, if_neg hb]
    by_cases hc : hasSuffix r2 ("iv".data ++ s) = true
    · rw [if_pos hc, if_pos hc, hr2slice _ (by simp) hc]; rfl
    rw [if_neg hc, if_neg hc]
    by_cases hd : hasSuffix r2 s = true
    · rw [if_pos hd, if_pos hd, hr2slice s h0 hd]; rfl
    · rw [if_neg hd, if_neg hd]
  rw [if_neg hg6, if_neg hg6]
  by_cases hg7 : g = 7
  · rw [if_pos hg7, if_pos hg7]
    by_cases ha : hasSuffix r2 ("at".data ++ s) = true
    · rw [if_pos ha, if_pos ha, hr2slice _ (by simp) ha]; rfl
    rw [if_neg ha, if_neg ha]
    by_cases hd : hasSuffix r2 s = true
    · rw [if_pos hd, if_pos hd, hr2slice s h0 hd]; rfl
    · rw [if_neg hd, if_neg hd]
  rw [if_neg hg7, if_neg hg7]
  by_cases hg8 : g = 8
  · rw [if_pos hg8, if_pos hg8]
    by_cases ha : hasSuffix rvp s = true
    · rw [if_pos ha, if_pos ha]
      by_cases hb : hasSuffix word ("e".data ++ s) = true
      · have hsw : s <:+ word :=
          List.IsSuffix.trans ⟨['e'], rfl⟩ (hasSuffix_iff.mp hb)
        rw [if_pos hb, if_pos hb, hsliceG word s h0 hsw]
        rfl
      · rw [if_neg hb, if_neg hb]
    · rw [if_neg ha, if_neg ha]
  rw [if_neg hg8, if_neg hg8]

/-- `StemChk` never returns `none`: every slice executed by `Stem` is in
bounds, and the checked pipeline computes exactly `Stem`. -/
theorem StemChk_eq (w : List Char) : StemChk w = some (Stem w) := by
  simp only [StemChk, Stem]
  rw [step1Chk_eq (expandNasalisedVowels w) (r (expandNasalisedVowels w))
    (r (r (expandNasalisedVowels w))) (rv (expandNasalisedVowels w))
    (r_suffix _) (r_suffix _)]
  have hor1 := step1_modified_or_id (expandNasalisedVowels w)
    (r (expandNasalisedVowels w)) (r (r (expandNasalisedVowels w)))
    (rv (expandNasalisedVowels w)) (r_suffix _)
  generalize hs1 : step1 (expandNasalisedVowels w) (r (expandNasalisedVowels w))
    (r (r (expandNasalisedVowels w))) (rv (expandNasalisedVowels w)) = s1 at hor1 ⊢
  obtain ⟨w1, m1⟩ := s1
  cases m1 with
  | true =>
    simp only [Option.some_bind, if_pos rfl, if_true, step3Chk]
    have hor3 := step3_modified_or_id w1 (r w1) (r (r w1)) (rv w1)
    generalize hs3 : step3 w1 (r w1) (r (r w1)) (rv w1) = s3 at hor3 ⊢
    obtain ⟨w3, m3⟩ := s3
    cases m3 with
    | true =>
      simp only [Option.some_bind, if_pos rfl, if_true]
      rw [step5Chk_eq w3 (r w3) (r (r w3)) (rv w3) (rv_suffix _)]
      simp only [Option.map_some']
    | false =>
      have hw3 : w3 = w1 := by
        rcases hor3 with hmod | hid
        · simp at hmod
        · exact congrArg Prod.fst hid
      rw [hw3]
      simp only [Option.some_bind, Bool.false_eq_true, if_false]
      rw [step5Chk_eq w1 (r w1) (r (r w1)) (rv w1) (rv_suffix _)]
      simp only [Option.map_some']
  | false =>
    have hw1 : w1 = expandNasalisedVowels w := by
      rcases hor1 with hmod | hid
      · simp at hmod
      · exact congrArg Prod.fst hid
    subst hw1
    simp only [Option.some_bind, Bool.false_eq_true, if_false]
    rw [step2Chk_eq (expandNasalisedVowels w) (r (expandNasalisedVowels w))
      (r (r (expandNasalisedVowels w))) (rv (expandNasalisedVowels w))
      (rv_suffix _)]
    have hor2 := step2_modified_or_id (expandNasalisedVowels w)
      (r (expandNasalisedVowels w)) (r (r (expandNasalisedVowels w)))
      (rv (expandNasalisedVowels w))
    generalize hs2 : step2 (expandNasalisedVowels w) (r (expandNasalisedVowels w))
      (r (r (expandNasalisedVowels w))) (rv (expandNasalisedVowels w)) = s2
      at hor2 ⊢
    obtain ⟨w2, m2⟩ := s2
    cases m2 with
    | true =>
      simp only [Option.some_bind, if_pos rfl, if_true, step3Chk]
      have hor3 := step3_modified_or_id w2 (r w2) (r (r w2)) (rv w2)
      generalize hs3 : step3 w2 (r w2) (r (r w2)) (rv w2) = s3 at hor3 ⊢
      obtain ⟨w3, m3⟩ := s3
      cases m3 with
      | true =>
        simp only [Option.some_bind, if_pos rfl, if_true]
        rw [step5Chk_eq w3 (r w3) (r (r w3)) (rv w3) (rv_suffix _)]
        simp only [Option.map_some']
      | false =>
        have hw3 : w3 = w2 := by
          rcases hor3 with hmod | hid
          · simp at hmod
          · exact congrArg Prod.fst hid
        rw [hw3]
        simp only [Option.some_bind, Bool.false_eq_true, if_false]
        rw [step5Chk_eq w2 (r w2) (r (r w2)) (rv w2) (rv_suffix _)]
        simp only [Option.map_some']
    | false =>
      have hw2 : w2 = expandNasalisedVowels w := by
        rcases hor2 with hmod | hid
        · simp at hmod
        · exact congrArg Prod.fst hid
      subst hw2
      simp only [Option.some_bind, Bool.false_eq_true, if_false]
      rw [step4Chk_eq (expandNasalisedVowels w) (r (expandNasalisedVowels w))
        (r (r (expandNasalisedVowels w))) (rv (expandNasalisedVowels w))
        (rv_suffix _)]
      have hor4 := step4_modified_or_id (expandNasalisedVowels w)
        (r (expandNasalisedVowels w)) (r (r (expandNasalisedVowels w)))
        (rv (expandNasalisedVowels w))
      generalize hs4 : step4 (expandNasalisedVowels w)
        (r (expandNasalisedVowels w)) (r (r (expandNasalisedVowels w)))
        (rv (expandNasalisedVowels w)) = s4 at hor4 ⊢
      obtain ⟨w4, m4⟩ := s4
      cases m4 with
      | true =>
        simp only [Option.some_bind, if_pos rfl, if_true]
        rw [step5Chk_eq w4 (r w4) (r (r w4)) (rv w4) (rv_suffix _)]
        simp only [Option.map_some']
      | false =>
        have hw4 : w4 = expandNasalisedVowels w := by
          rcases hor4 with hmod | hid
          · simp at hmod
          · exact congrArg Prod.fst hid
        subst hw4
        simp only [Option.some_bind, Bool.false_eq_true, if_false]
        rw [step5Chk_eq (expandNasalisedVowels w) (r (expandNasalisedVowels w))
          (r (r (expandNasalisedVowels w))) (rv (expandNasalisedVowels w))
          (rv_suffix _)]
        simp only [Option.map_some']

/-- `rv` returns the empty region on words shorter than 3 runes. -/
theorem rv_short : ∀ w : List Char, w.length < 3 → rv w = [] := by
  intro w h
  match w with
  | [] => rfl
  | [a] => rfl
  | [a, b] => rfl
  | a :: b :: c :: t => simp at h; omega

/-- `replaceAll` with a single-character pattern acts pointwise. -/
theorem replaceAll_single (c : Char) (new : List Char) :
    ∀ s, replaceAll s [c] new =
      s.flatMap (fun x => if x = c then new else [x]) := by
  intro s
  induction s with
  | nil => rfl
  | cons x rest ih =>
    rw [replaceAll_cons]
    by_cases hx : x = c
    · have hcond : ([c] ≠ ([] : List Char) ∧
          ([c] : List Char).isPrefixOf (x :: rest)) := by
        subst hx
        exact ⟨by simp, by simp [List.isPrefixOf]⟩
      rw [if_pos hcond]
      have hdrop : (x :: rest).drop ([c] : List Char).length = rest := rfl
      rw [hdrop, ih]
      subst hx
      simp [List.flatMap_cons]
    · have hcond : ¬ ([c] ≠ ([] : List Char) ∧
          ([c] : List Char).isPrefixOf (x :: rest)) := by
        rintro ⟨-, hpre⟩
        simp [List.isPrefixOf] at hpre
        exact hx hpre.symm
      rw [if_neg hcond, ih]
      simp [List.flatMap_cons, hx]

/-- Nasal expansion is the pointwise expansion of each character. -/
theorem expand_eq_flatMap (w : List Char) :
    expandNasalisedVowels w = w.flatMap nasalExpandChar := by
  show replaceAll (replaceAll w "ã".data "a~".data) "õ".data "o~".data = _
  have h1 : ("ã".data : List Char) = ['ã'] := rfl
  have h2 : ("õ".data : List Char) = ['õ'] := rfl
  rw [h1, h2, replaceAll_single, replaceAll_single, List.flatMap_assoc]
  congr 1
  funext x
  by_cases ha : x = 'ã'
  · subst ha; decide
  · by_cases ho : x = 'õ'
    · subst ho; decide
    · simp [ha, ho, nasalExpandChar, List.flatMap_cons]

/-- Nasal expansion over a cons cell. -/
theorem expand_cons (c : Char) (t : List Char) :
    expandNasalisedVowels (c :: t) =
      nasalExpandChar c ++ expandNasalisedVowels t := by
  rw [expand_eq_flatMap, List.flatMap_cons, ← expand_eq_flatMap]

/-- On a tilde-free word the expansion never starts with the marker. -/
theorem expand_head_ne (w : List Char) (hw : '~' ∉ w) :
    ∀ y, (expandNasalisedVowels w).head? = some y → y ≠ '~' := by
  cases w with
  | nil => intro y h; rw [expand_eq_flatMap] at h; simp at h
  | cons c t =>
    intro y h
    have hc : c ≠ '~' := fun hh => hw (hh ▸ List.mem_cons_self c t)
    rw [expand_cons] at h
    by_cases h1 : c = 'ã'
    · subst h1
      rw [show nasalExpandChar 'ã' = ['a', '~'] from rfl] at h
      simp at h
      subst h
      decide
    · by_cases h2 : c = 'õ'
      · subst h2
        rw [show nasalExpandChar 'õ' = ['o', '~'] from rfl] at h
        simp at h
        subst h
        decide
      · rw [show nasalExpandChar c = [c] from by
            simp [nasalExpandChar, h1, h2]] at h
        simp at h
        subst h
        exact hc

/-- On a tilde-free word the "kept-õ" image never starts with the
marker. -/
theorem keepO_head_ne (w : List Char) (hw : '~' ∉ w) :
    ∀ y, (w.flatMap nasalKeepO).head? = some y → y ≠ '~' := by
  cases w with
  | nil => intro y h; simp at h
  | cons c t =>
    intro y h
    have hc : c ≠ '~' := fun hh => hw (hh ▸ List.mem_cons_self c t)
    rw [List.flatMap_cons] at h
    by_cases h2 : c = 'õ'
    · subst h2
      rw [show nasalKeepO 'õ' = ['o', '~'] from rfl] at h
      simp at h
      subst h
      decide
    · rw [show nasalKeepO c = [c] from by simp [nasalKeepO, h2]] at h
      simp at h
      subst h
      exact hc

/-- The "a~" → "ã" contraction pass undoes the 'ã' expansion, leaving
exactly the 'õ' expansions in place. -/
theorem pass1_expand (w : List Char) (hw : '~' ∉ w) :
    replaceAll (expandNasalisedVowels w) "a~".data "ã".data =
      w.flatMap nasalKeepO := by
  induction w with
  | nil => rfl
  | cons c t ih =>
    have hw' : '~' ∉ t := fun hh => hw (List.mem_cons_of_mem c hh)
    have hc : c ≠ '~' := fun hh => hw (hh ▸ List.mem_cons_self c t)
    rw [expand_cons, List.flatMap_cons]
    by_cases h1 : c = 'ã'
    · subst h1
      rw [show nasalExpandChar 'ã' = ['a', '~'] from rfl]
      simp only [List.cons_append, List.nil_append]
      rw [replaceAll_cons]
      have hcond : ("a~".data ≠ ([] : List Char) ∧
          ("a~".data).isPrefixOf
            ('a' :: '~' :: expandNasalisedVowels t)) := by
        exact ⟨by simp, by simp [List.isPrefixOf]⟩
      rw [if_pos hcond]
      have hdrop : ('a' :: '~' :: expandNasalisedVowels t).drop
          ("a~".data).length = expandNasalisedVowels t := rfl
      rw [hdrop, ih hw']
      rfl
    · by_cases h2 : c = 'õ'
      · subst h2
        rw [show nasalExpandChar 'õ' = ['o', '~'] from rfl]
        simp only [List.cons_append, List.nil_append]
        rw [replaceAll_cons]
        have hcond : ¬ ("a~".data ≠ ([] : List Char) ∧
            ("a~".data).isPrefixOf
              ('o' :: '~' :: expandNasalisedVowels t)) := by
          rintro ⟨-, hpre⟩
          simp [List.isPrefixOf] at hpre
        rw [if_neg hcond, replaceAll_cons]
        have hcond2 : ¬ ("a~".data ≠ ([] : List Char) ∧
            ("a~".data).isPrefixOf ('~' :: expandNasalisedVowels t)) := by
          rintro ⟨-, hpre⟩
          simp [List.isPrefixOf] at hpre
        rw [if_neg hcond2, ih hw']
        rfl
      · rw [show nasalExpandChar c = [c] from by simp [nasalExpandChar, h1, h2]]
        simp only [List.cons_append, List.nil_append]
        rw [replaceAll_cons]
        have hcond : ¬ ("a~".data ≠ ([] : List Char) ∧
            ("a~".data).isPrefixOf (c :: expandNasalisedVowels t)) := by
          rintro ⟨-, hpre⟩
          have hpre2 : (('a' == c) &&
              (['~'] : List Char).isPrefixOf (expandNasalisedVowels t)) = true := by
            simpa [List.isPrefixOf] using hpre
          by_cases hca : c = 'a'
          · subst hca
            cases hE : expandNasalisedVowels t with
            | nil => rw [hE] at hpre2; simp [List.isPrefixOf] at hpre2
            | cons y E2 =>
              rw [hE] at hpre2
              have hy : y ≠ '~' := expand_head_ne t hw' y (by rw [hE]; rfl)
              simp [List.isPrefixOf] at hpre2
              exact hy hpre2.symm
          · have : ('a' == c) = false := by simp [Ne.symm hca]
            rw [this] at hpre2
            simp at hpre2
        rw [if_neg hcond, ih hw']
        simp [nasalKeepO, h2]

/-- The "o~" → "õ" contraction pass undoes the remaining 'õ'
expansions. -/
theorem pass2_keepO (w : List Char) (hw : '~' ∉ w) :
    replaceAll (w.flatMap nasalKeepO) "o~".data "õ".data = w := by
  induction w with
  | nil => rfl
  | cons c t ih =>
    have hw' : '~' ∉ t := fun hh => hw (List.mem_cons_of_mem c hh)
    have hc : c ≠ '~' := fun hh => hw (hh ▸ List.mem_cons_self c t)
    rw [List.flatMap_cons]
    by_cases h2 : c = 'õ'
    · subst h2
      rw [show nasalKeepO 'õ' = ['o', '~'] from rfl]
      simp only [List.cons_append, List.nil_append]
      rw [replaceAll_cons]
      have hcond : ("o~".data ≠ ([] : List Char) ∧
          ("o~".data).isPrefixOf ('o' :: '~' :: t.flatMap nasalKeepO)) := by
        exact ⟨by simp, by simp [List.isPrefixOf]⟩
      rw [if_pos hcond]
      have hdrop : ('o' :: '~' :: t.flatMap nasalKeepO).drop
          ("o~".data).length = t.flatMap nasalKeepO := rfl
      rw [hdrop, ih hw']
      rfl
    · rw [show nasalKeepO c = [c] from by simp [nasalKeepO, h2]]
      simp only [List.cons_append, List.nil_append]
      rw [replaceAll_cons]
      have hcond : ¬ ("o~".data ≠ ([] : List Char) ∧
          ("o~".data).isPrefixOf (c :: t.flatMap nasalKeepO)) := by
        rintro ⟨-, hpre⟩
        have hpre2 : (('o' == c) &&
            (['~'] : List Char).isPrefixOf (t.flatMap nasalKeepO)) = true := by
          simpa [List.isPrefixOf] using hpre
        by_cases hco : c = 'o'
        · subst hco
          cases hE : t.flatMap nasalKeepO with
          | nil => rw [hE] at hpre2; simp [List.isPrefixOf] at hpre2
          | cons y E2 =>
            rw [hE] at hpre2
            have hy : y ≠ '~' := keepO_head_ne t hw' y (by rw [hE]; rfl)
            simp [List.isPrefixOf] at hpre2
            exact hy hpre2.symm
        · have : ('o' == c) = false := by simp [Ne.symm hco]
          rw [this] at hpre2
          simp at hpre2
      rw [if_neg hcond, ih hw']

/-! ## Claim theorems -/

/-- C1: evaluation of `rv` at the failing input "bbbb": the second
character is a consonant and the word contains no vowel anywhere, so the
claim (and the function's own documentation) require "", but the Go code
falls through to `return string(runes[3:])` and yields "b". -/
theorem rv_code_bug_eval :
    rv "bbbb".data = "b".data ∧
    isVowel 'b' = false ∧
    "bbbb".data.all (fun c => ! isVowel c) = true := by decide

/-- C5: `r` analysis.  `r ""` is "", `r word` is always a trailing
substring of `word`, `r` returns "" when no vowel–non-vowel transition
exists, and otherwise returns the substring starting two positions after
the first (leftmost) transition. -/
theorem r_spec :
    r ([] : List Char) = [] ∧
    (∀ w : List Char, r w <:+ w) ∧
    (∀ w : List Char,
      (∀ i, (h : i + 1 < w.length) → ¬(isVowel w[i] ∧ ¬ isVowel w[i + 1])) →
      r w = []) ∧
    (∀ (w : List Char) (i : Nat), (h : i + 1 < w.length) →
      isVowel w[i] → ¬ isVowel w[i + 1] →
      (∀ j, j < i → (hj : j + 1 < w.length) → ¬(isVowel w[j] ∧ ¬ isVowel w[j + 1])) →
      r w = w.drop (i + 2)) :=
  ⟨rfl, r_suffix, r_eq_nil_of_no_transition, r_eq_drop_of_first_transition⟩

/-- Witness for C5: the no-transition case at "bcd" and the
first-transition case at "ab" (transition at position 0). -/
theorem r_spec_witness :
    r "bcd".data = [] ∧ r "ab".data = "ab".data.drop 2 :=
  ⟨r_spec.2.2.1 "bcd".data
    (by intro i h
        have hb : "bcd".data = ['b', 'c', 'd'] := rfl
        have hl : ("bcd".data).length = 3 := rfl
        rw [hl] at h
        have hi : i < 2 := by omega
        interval_cases i
        all_goals simp only [hb, List.getElem_cons_zero, List.getElem_cons_succ]
        all_goals decide),
   r_spec.2.2.2 "ab".data 0 (by decide) (by decide) (by decide)
     (by intro j hj; exact absurd hj (Nat.not_lt_zero j))⟩

/-- C2: `LongestSuffix` returns ("", -1) when no registered suffix is a
trailing substring of the query, and otherwise a registered suffix of
maximum character length among those that are trailing substrings,
together with the category id it was registered with; in particular,
after registering "ismos", "a", "ma", "dog", "ia" (all with category 1),
`LongestSuffix("algorismos")` is ("ismos", 1) and
`LongestSuffix("algoritmos")` is ("", -1). -/
theorem longestSuffix_spec (es : List (List Char × Int)) (q : List Char)
    (hne : ∀ e ∈ es, e.1 ≠ []) :
    ((¬ ∃ e ∈ es, e.1 <:+ q) → (buildTree es).longestSuffix q = ([], -1)) ∧
    ((∃ e ∈ es, e.1 <:+ q) →
      ∃ s g, (buildTree es).longestSuffix q = (s, g) ∧ s <:+ q ∧
        (s, g) ∈ es ∧ lastGroup es s = some g ∧
        ∀ e ∈ es, e.1 <:+ q → e.1.length ≤ s.length) ∧
    (buildTree [("ismos".data, 1), ("a".data, 1), ("ma".data, 1),
        ("dog".data, 1), ("ia".data, 1)]).longestSuffix "algorismos".data =
      ("ismos".data, 1) ∧
    (buildTree [("ismos".data, 1), ("a".data, 1), ("ma".data, 1),
        ("dog".data, 1), ("ia".data, 1)]).longestSuffix "algoritmos".data =
      ([], -1) :=
  ⟨(longestSuffix_correct es q hne).1, (longestSuffix_correct es q hne).2,
    by decide, by decide⟩

/-- Witness for C2: both halves of the specification applied to the
demonstration tree, with every hypothesis discharged concretely. -/
theorem longestSuffix_spec_witness :
    (∃ s g,
      (buildTree [("ismos".data, 1), ("a".data, 1), ("ma".data, 1),
        ("dog".data, 1), ("ia".data, 1)]).longestSuffix "algorismos".data =
          (s, g) ∧
      s <:+ "algorismos".data ∧
      (s, g) ∈ [("ismos".data, 1), ("a".data, 1), ("ma".data, 1),
        ("dog".data, 1), ("ia".data, 1)] ∧
      lastGroup [("ismos".data, 1), ("a".data, 1), ("ma".data, 1),
        ("dog".data, 1), ("ia".data, 1)] s = some g ∧
      ∀ e ∈ ([("ismos".data, 1), ("a".data, 1), ("ma".data, 1),
        ("dog".data, 1), ("ia".data, 1)] : List (List Char × Int)),
        e.1 <:+ "algorismos".data → e.1.length ≤ s.length) ∧
    (buildTree [("ismos".data, 1), ("a".data, 1), ("ma".data, 1),
        ("dog".data, 1), ("ia".data, 1)]).longestSuffix "algoritmos".data =
      ([], -1) := by
  constructor
  · exact (longestSuffix_spec [("ismos".data, 1), ("a".data, 1), ("ma".data, 1),
      ("dog".data, 1), ("ia".data, 1)] "algorismos".data (by decide)).2.1
      ⟨("ismos".data, 1), by decide, by decide⟩
  · exact (longestSuffix_spec [("ismos".data, 1), ("a".data, 1), ("ma".data, 1),
      ("dog".data, 1), ("ia".data, 1)] "algoritmos".data (by decide)).1
      (by decide)

/-- C9: `rv` always yields a trailing substring of its argument, and
whenever step 2, step 4 or step 5 obtains a non-empty suffix from its
tree queried against an RV region that is a trailing substring of the
current word, the deleted pattern is a trailing substring of the word,
`strings.LastIndex` returns the non-negative index
`len(word) - len(pattern)`, and the step's slice deletes exactly that
trailing occurrence (so the steps are total). -/
theorem steps_slices_in_bounds :
    (∀ w : List Char, rv w <:+ w) ∧
    (∀ word r1 r2 rvp : List Char, rvp <:+ word →
      (step2SuffixTree.longestSuffix rvp).1 ≠ [] →
      (step2SuffixTree.longestSuffix rvp).1 <:+ word ∧
      lastIndex word (step2SuffixTree.longestSuffix rvp).1 =
        ((word.length - (step2SuffixTree.longestSuffix rvp).1.length : Nat) : Int) ∧
      0 ≤ lastIndex word (step2SuffixTree.longestSuffix rvp).1 ∧
      step2 word r1 r2 rvp =
        (word.take (word.length - (step2SuffixTree.longestSuffix rvp).1.length),
          true)) ∧
    (∀ word r1 r2 rvp : List Char, rvp <:+ word →
      (step4SuffixTree.longestSuffix rvp).1 ≠ [] →
      (step4SuffixTree.longestSuffix rvp).1 <:+ word ∧
      lastIndex word (step4SuffixTree.longestSuffix rvp).1 =
        ((word.length - (step4SuffixTree.longestSuffix rvp).1.length : Nat) : Int) ∧
      0 ≤ lastIndex word (step4SuffixTree.longestSuffix rvp).1 ∧
      step4 word r1 r2 rvp =
        (word.take (word.length - (step4SuffixTree.longestSuffix rvp).1.length),
          true)) ∧
    (∀ word r1 r2 rvp : List Char, rvp <:+ word →
      (step5SuffixTree.longestSuffix rvp).1 ≠ [] →
      (step5SuffixTree.longestSuffix rvp).1 <:+ word ∧
      ∃ d, (d = "u".data ++ (step5SuffixTree.longestSuffix rvp).1 ∨
            d = "i".data ++ (step5SuffixTree.longestSuffix rvp).1 ∨
            d = (step5SuffixTree.longestSuffix rvp).1) ∧
        d <:+ word ∧
        lastIndex word d = ((word.length - d.length : Nat) : Int) ∧
        0 ≤ lastIndex word d ∧
        step5 word r1 r2 rvp = (word.take (word.length - d.length), true)) :=
  ⟨rv_suffix, step2_exact, step4_exact, step5_exact⟩

set_option maxRecDepth 40000 in
/-- Witness for C9: concrete invocations with RV regions computed by the
stemmer itself ("daria" = rv "ajudaria", "de" = rv "ajude"). -/
theorem steps_slices_witness :
    ((step2SuffixTree.longestSuffix "daria".data).1 <:+ "ajudaria".data ∧
      lastIndex "ajudaria".data (step2SuffixTree.longestSuffix "daria".data).1 =
        (("ajudaria".data.length -
          (step2SuffixTree.longestSuffix "daria".data).1.length : Nat) : Int) ∧
      0 ≤ lastIndex "ajudaria".data
        (step2SuffixTree.longestSuffix "daria".data).1 ∧
      step2 "ajudaria".data [] [] "daria".data =
        ("ajudaria".data.take ("ajudaria".data.length -
          (step2SuffixTree.longestSuffix "daria".data).1.length), true)) ∧
    ((step4SuffixTree.longestSuffix "daria".data).1 <:+ "ajudaria".data ∧
      lastIndex "ajudaria".data (step4SuffixTree.longestSuffix "daria".data).1 =
        (("ajudaria".data.length -
          (step4SuffixTree.longestSuffix "daria".data).1.length : Nat) : Int) ∧
      0 ≤ lastIndex "ajudaria".data
        (step4SuffixTree.longestSuffix "daria".data).1 ∧
      step4 "ajudaria".data [] [] "daria".data =
        ("ajudaria".data.take ("ajudaria".data.length -
          (step4SuffixTree.longestSuffix "daria".data).1.length), true)) ∧
    ((step5SuffixTree.longestSuffix "de".data).1 <:+ "ajude".data ∧
      ∃ d, (d = "u".data ++ (step5SuffixTree.longestSuffix "de".data).1 ∨
            d = "i".data ++ (step5SuffixTree.longestSuffix "de".data).1 ∨
            d = (step5SuffixTree.longestSuffix "de".data).1) ∧
        d <:+ "ajude".data ∧
        lastIndex "ajude".data d = (("ajude".data.length - d.length : Nat) : Int) ∧
        0 ≤ lastIndex "ajude".data d ∧
        step5 "ajude".data [] [] "de".data =
          ("ajude".data.take ("ajude".data.length - d.length), true)) :=
  ⟨steps_slices_in_bounds.2.1 "ajudaria".data [] [] "daria".data
      (by decide) (by decide),
   steps_slices_in_bounds.2.2.1 "ajudaria".data [] [] "daria".data
      (by decide) (by decide),
   steps_slices_in_bounds.2.2.2 "ajude".data [] [] "de".data
      (by decide) (by decide)⟩

/-- C3: orchestration of `Stem`.  The instrumented run agrees with
`Stem`; step 2 is attempted iff step 1 reported no modification; step 3
is attempted iff the 1/2 phase modified the word and step 4 iff it did
not; step 5 is always attempted; every attempted step receives regions
`r w`, `r (r w)`, `rv w` freshly valid for the word it is given (stale
regions are never used); and regions are recomputed at most twice. -/
theorem stem_orchestration (w e : List Char) (s1 s12 : List Char × Bool)
    (he : e = expandNasalisedVowels w)
    (hs1 : s1 = step1 e (r e) (r (r e)) (rv e))
    (hs12 : s12 = if s1.2 then s1 else step2 s1.1 (r e) (r (r e)) (rv e)) :
    (stemInstr w).result = Stem w ∧
    (∃ q ∈ (stemInstr w).log, q.num = 1) ∧
    ((∃ q ∈ (stemInstr w).log, q.num = 2) ↔ s1.2 = false) ∧
    ((∃ q ∈ (stemInstr w).log, q.num = 3) ↔ s12.2 = true) ∧
    ((∃ q ∈ (stemInstr w).log, q.num = 4) ↔ s12.2 = false) ∧
    (∃ q ∈ (stemInstr w).log, q.num = 5) ∧
    (∀ q ∈ (stemInstr w).log,
      q.reg1 = r q.qword ∧ q.reg2 = r (r q.qword) ∧ q.regv = rv q.qword) ∧
    (stemInstr w).recomputations ≤ 2 := by
  subst he hs1 hs12
  simp only [stemInstr, Stem]
  by_cases h1 : (step1 (expandNasalisedVowels w) (r (expandNasalisedVowels w))
      (r (r (expandNasalisedVowels w))) (rv (expandNasalisedVowels w))).2 = true
  · simp only [h1, if_true]
    by_cases h3 : (step3 (step1 (expandNasalisedVowels w)
        (r (expandNasalisedVowels w)) (r (r (expandNasalisedVowels w)))
        (rv (expandNasalisedVowels w))).1
        (r (step1 (expandNasalisedVowels w) (r (expandNasalisedVowels w))
          (r (r (expandNasalisedVowels w))) (rv (expandNasalisedVowels w))).1)
        (r (r (step1 (expandNasalisedVowels w) (r (expandNasalisedVowels w))
          (r (r (expandNasalisedVowels w))) (rv (expandNasalisedVowels w))).1))
        (rv (step1 (expandNasalisedVowels w) (r (expandNasalisedVowels w))
          (r (r (expandNasalisedVowels w)))
          (rv (expandNasalisedVowels w))).1)).2 = true
    · simp [h1, h3, List.forall_mem_cons]
    · rcases step3_modified_or_id
          (step1 (expandNasalisedVowels w) (r (expandNasalisedVowels w))
            (r (r (expandNasalisedVowels w))) (rv (expandNasalisedVowels w))).1
          (r (step1 (expandNasalisedVowels w) (r (expandNasalisedVowels w))
            (r (r (expandNasalisedVowels w))) (rv (expandNasalisedVowels w))).1)
          (r (r (step1 (expandNasalisedVowels w) (r (expandNasalisedVowels w))
            (r (r (expandNasalisedVowels w))) (rv (expandNasalisedVowels w))).1))
          (rv (step1 (expandNasalisedVowels w) (r (expandNasalisedVowels w))
            (r (r (expandNasalisedVowels w)))
            (rv (expandNasalisedVowels w))).1) with hmod | hid3
      · exact absurd hmod h3
      · simp [h1, hid3, List.forall_mem_cons]
  · have h1f : (step1 (expandNasalisedVowels w) (r (expandNasalisedVowels w))
        (r (r (expandNasalisedVowels w))) (rv (expandNasalisedVowels w))).2
        = false := by
      cases hb : (step1 (expandNasalisedVowels w) (r (expandNasalisedVowels w))
          (r (r (expandNasalisedVowels w))) (rv (expandNasalisedVowels w))).2
      · rfl
      · exact absurd hb h1
    rcases step1_modified_or_id (expandNasalisedVowels w)
        (r (expandNasalisedVowels w)) (r (r (expandNasalisedVowels w)))
        (rv (expandNasalisedVowels w)) (r_suffix (r (expandNasalisedVowels w)))
        with hmod | hid1
    · exact absurd hmod h1
    rw [hid1]
    simp only [Bool.false_eq_true, if_false]
    by_cases h2 : (step2 (expandNasalisedVowels w) (r (expandNasalisedVowels w))
        (r (r (expandNasalisedVowels w))) (rv (expandNasalisedVowels w))).2 = true
    · simp only [h2, if_true]
      by_cases h3 : (step3 (step2 (expandNasalisedVowels w)
          (r (expandNasalisedVowels w)) (r (r (expandNasalisedVowels w)))
          (rv (expandNasalisedVowels w))).1
          (r (step2 (expandNasalisedVowels w) (r (expandNasalisedVowels w))
            (r (r (expandNasalisedVowels w))) (rv (expandNasalisedVowels w))).1)
          (r (r (step2 (expandNasalisedVowels w) (r (expandNasalisedVowels w))
            (r (r (expandNasalisedVowels w))) (rv (expandNasalisedVowels w))).1))
          (rv (step2 (expandNasalisedVowels w) (r (expandNasalisedVowels w))
            (r (r (expandNasalisedVowels w)))
            (rv (expandNasalisedVowels w))).1)).2 = true
      · simp [h1f, h2, h3, List.forall_mem_cons]
      · rcases step3_modified_or_id
            (step2 (expandNasalisedVowels w) (r (expandNasalisedVowels w))
              (r (r (expandNasalisedVowels w))) (rv (expandNasalisedVowels w))).1
            (r (step2 (expandNasalisedVowels w) (r (expandNasalisedVowels w))
              (r (r (expandNasalisedVowels w))) (rv (expandNasalisedVowels w))).1)
            (r (r (step2 (expandNasalisedVowels w) (r (expandNasalisedVowels w))
              (r (r (expandNasalisedVowels w))) (rv (expandNasalisedVowels w))).1))
            (rv (step2 (expandNasalisedVowels w) (r (expandNasalisedVowels w))
              (r (r (expandNasalisedVowels w)))
              (rv (expandNasalisedVowels w))).1) with hmod | hid3
        · exact absurd hmod h3
        · simp [h1f, h2, hid3, List.forall_mem_cons]
    · have h2f : (step2 (expandNasalisedVowels w) (r (expandNasalisedVowels w))
          (r (r (expandNasalisedVowels w))) (rv (expandNasalisedVowels w))).2
          = false := by
        cases hb : (step2 (expandNasalisedVowels w) (r (expandNasalisedVowels w))
            (r (r (expandNasalisedVowels w))) (rv (expandNasalisedVowels w))).2
        · rfl
        · exact absurd hb h2
      rcases step2_modified_or_id (expandNasalisedVowels w)
          (r (expandNasalisedVowels w)) (r (r (expandNasalisedVowels w)))
          (rv (expandNasalisedVowels w)) with hmod | hid2
      · exact absurd hmod h2
      rw [hid2]
      simp only [Bool.false_eq_true, if_false]
      by_cases h4 : (step4 (expandNasalisedVowels w) (r (expandNasalisedVowels w))
          (r (r (expandNasalisedVowels w))) (rv (expandNasalisedVowels w))).2 = true
      · simp [h1f, h2f, hid2, h4, List.forall_mem_cons]
      · rcases step4_modified_or_id (expandNasalisedVowels w)
            (r (expandNasalisedVowels w)) (r (r (expandNasalisedVowels w)))
            (rv (expandNasalisedVowels w)) with hmod | hid4
        · exact absurd hmod h4
        · simp [h1f, h2f, hid2, hid4, List.forall_mem_cons]

/-- Witness for C3: the orchestration invariants at the concrete word
"ajuda", with the defining equations discharged by `rfl`. -/
theorem stem_orchestration_witness :
    (stemInstr "ajuda".data).result = Stem "ajuda".data ∧
    (∃ q ∈ (stemInstr "ajuda".data).log, q.num = 1) ∧
    ((∃ q ∈ (stemInstr "ajuda".data).log, q.num = 2) ↔
      (step1 (expandNasalisedVowels "ajuda".data)
        (r (expandNasalisedVowels "ajuda".data))
        (r (r (expandNasalisedVowels "ajuda".data)))
        (rv (expandNasalisedVowels "ajuda".data))).2 = false) ∧
    ((∃ q ∈ (stemInstr "ajuda".data).log, q.num = 3) ↔
      (if (step1 (expandNasalisedVowels "ajuda".data)
            (r (expandNasalisedVowels "ajuda".data))
            (r (r (expandNasalisedVowels "ajuda".data)))
            (rv (expandNasalisedVowels "ajuda".data))).2 then
          step1 (expandNasalisedVowels "ajuda".data)
            (r (expandNasalisedVowels "ajuda".data))
            (r (r (expandNasalisedVowels "ajuda".data)))
            (rv (expandNasalisedVowels "ajuda".data))
        else step2 (step1 (expandNasalisedVowels "ajuda".data)
            (r (expandNasalisedVowels "ajuda".data))
            (r (r (expandNasalisedVowels "ajuda".data)))
            (rv (expandNasalisedVowels "ajuda".data))).1
          (r (expandNasalisedVowels "ajuda".data))
          (r (r (expandNasalisedVowels "ajuda".data)))
          (rv (expandNasalisedVowels "ajuda".data))).2 = true) ∧
    ((∃ q ∈ (stemInstr "ajuda".data).log, q.num = 4) ↔
      (if (step1 (expandNasalisedVowels "ajuda".data)
            (r (expandNasalisedVowels "ajuda".data))
            (r (r (expandNasalisedVowels "ajuda".data)))
            (rv (expandNasalisedVowels "ajuda".data))).2 then
          step1 (expandNasalisedVowels "ajuda".data)
            (r (expandNasalisedVowels "ajuda".data))
            (r (r (expandNasalisedVowels "ajuda".data)))
            (rv (expandNasalisedVowels "ajuda".data))
        else step2 (step1 (expandNasalisedVowels "ajuda".data)
            (r (expandNasalisedVowels "ajuda".data))
            (r (r (expandNasalisedVowels "ajuda".data)))
            (rv (expandNasalisedVowels "ajuda".data))).1
          (r (expandNasalisedVowels "ajuda".data))
          (r (r (expandNasalisedVowels "ajuda".data)))
          (rv (expandNasalisedVowels "ajuda".data))).2 = false) ∧
    (∃ q ∈ (stemInstr "ajuda".data).log, q.num = 5) ∧
    (∀ q ∈ (stemInstr "ajuda".data).log,
      q.reg1 = r q.qword ∧ q.reg2 = r (r q.qword) ∧ q.regv = rv q.qword) ∧
    (stemInstr "ajuda".data).recomputations ≤ 2 :=
  stem_orchestration "ajuda".data _ _ _ rfl rfl rfl

/-- C7: `Stem` is total and deterministic over all rune sequences: the
panic-checked pipeline `StemChk` never fails and computes exactly the
(total, purely functional) `Stem`; `Stem("")` is ""; and the absent
cases inside are signalled by sentinels — `rv` returns "" on too-short
input and a suffix lookup with no match returns ("", -1). -/
theorem stem_total :
    (∀ w : List Char, StemChk w = some (Stem w)) ∧
    StemStr "" = "" ∧
    (∀ w : List Char, w.length < 3 → rv w = []) ∧
    (∀ q : List Char, (¬ ∃ e ∈ step2Entries, e.1 <:+ q) →
      step2SuffixTree.longestSuffix q = ([], -1)) :=
  ⟨StemChk_eq, rfl, rv_short,
    fun q h => (longestSuffix_correct step2Entries q (by decide)).1 h⟩

set_option maxRecDepth 40000 in
/-- Witness for C7: the sentinel conjuncts at concrete inputs — "ab" is
shorter than 3 runes, and no verb suffix matches "xyz". -/
theorem stem_total_witness :
    StemChk "ajuda".data = some (Stem "ajuda".data) ∧
    rv "ab".data = [] ∧
    step2SuffixTree.longestSuffix "xyz".data = ([], -1) :=
  ⟨stem_total.1 "ajuda".data,
   stem_total.2.2.1 "ab".data (by decide),
   stem_total.2.2.2 "xyz".data (by decide)⟩

/-- C6: on every input free of the nasal-marker character '~', the
nasalised-vowel expansion followed by contraction is a lossless round
trip. -/
theorem nasal_round_trip (w : List Char) (hw : '~' ∉ w) :
    contractNasalisedVowels (expandNasalisedVowels w) = w := by
  show replaceAll (replaceAll (expandNasalisedVowels w) "a~".data "ã".data)
    "o~".data "õ".data = w
  rw [pass1_expand w hw, pass2_keepO w hw]

/-- Witness for C6: the round trip at "canção", which contains both
nasal vowels. -/
theorem nasal_round_trip_witness :
    contractNasalisedVowels (expandNasalisedVowels "canção".data) =
      "canção".data :=
  nasal_round_trip "canção".data (by decide)

set_option maxRecDepth 40000 in
/-- C4: the literal end-to-end stemming equalities from the test
corpus. -/
theorem stem_literal_cases :
    StemStr "ajuda" = "ajud" ∧ StemStr "ajudado" = "ajud" ∧
    StemStr "ajudou" = "ajud" ∧ StemStr "abafaram" = "abaf" ∧
    StemStr "á" = "á" ∧ StemStr "ôôiii" = "ôôiii" := by decide

set_option maxRecDepth 40000 in
/-- C8: "ajud" is a fixed point of `Stem`, and re-stemming the stems of
"ajuda", "ajudado", "ajudou" (each of which stems to "ajud") changes
nothing. -/
theorem stem_fixed_point_cases :
    StemStr "ajud" = "ajud" ∧
    StemStr "ajuda" = "ajud" ∧
    StemStr "ajudado" = "ajud" ∧
    StemStr "ajudou" = "ajud" ∧
    StemStr (StemStr "ajuda") = StemStr "ajuda" ∧
    StemStr (StemStr "ajudado") = StemStr "ajudado" ∧
    StemStr (StemStr "ajudou") = StemStr "ajudou" := by decide

/-! ### Length bookkeeping for the stem-never-grows property

The rune count is tracked through the pipeline with the potential
ψ(X) = |X| − nasalPairs X, handled in additive form to stay in `Nat`:
each step satisfies |step X| + nasalPairs X ≤ |X| + nasalPairs (step X),
the initial expansion satisfies |expand w| ≤ |w| + nasalPairs (expand w),
and the final contraction removes exactly `nasalPairs` runes. -/

/-- `nasalPairs` of the empty list. -/
theorem nasalPairs_nil : nasalPairs ([] : List Char) = 0 := rfl

/-- `nasalPairs` of a one-character list. -/
theorem nasalPairs_single (x : Char) : nasalPairs [x] = 0 := rfl

/-- Unfolding `nasalPairs` on two leading characters. -/
theorem nasalPairs_cons (x b : Char) (r : List Char) :
    nasalPairs (x :: b :: r) =
      (if (x = 'a' ∨ x = 'o') ∧ b = '~' then 1 else 0) + nasalPairs (b :: r) :=
  rfl

/-- Unfolding `vPairs` on two leading characters. -/
theorem vPairs_cons (v x b : Char) (r : List Char) :
    vPairs v (x :: b :: r) =
      (if x = v ∧ b = '~' then 1 else 0) + vPairs v (b :: r) := rfl

/-- A head different from the tracked vowel contributes no pair. -/
theorem vPairs_cons_ne (v x : Char) (Y : List Char) (hx : x ≠ v) :
    vPairs v (x :: Y) = vPairs v Y := by
  cases Y with
  | nil => rfl
  | cons b r =>
    rw [vPairs_cons, if_neg (fun h => hx h.1)]
    omega

/-- `nasalPairs` splits as the sum of the per-vowel counts. -/
theorem nasalPairs_split : ∀ X : List Char,
    nasalPairs X = vPairs 'a' X + vPairs 'o' X
  | [] => rfl
  | [_] => rfl
  | a :: b :: rest => by
    have ih := nasalPairs_split (b :: rest)
    rw [nasalPairs_cons, vPairs_cons, vPairs_cons, ih]
    by_cases hb : b = '~'
    · subst hb
      by_cases ha : a = 'a'
      · subst ha
        rw [if_pos ⟨Or.inl rfl, rfl⟩, if_pos ⟨rfl, rfl⟩,
          if_neg (fun h => absurd h.1 (by decide))]
        omega
      · by_cases ho : a = 'o'
        · subst ho
          rw [if_pos ⟨Or.inr rfl, rfl⟩,
            if_neg (fun h => absurd h.1 (by decide)), if_pos ⟨rfl, rfl⟩]
          omega
        · rw [if_neg (fun h => h.1.elim ha ho), if_neg (fun h => ha h.1),
            if_neg (fun h => ho h.1)]
          omega
    · rw [if_neg (fun h => hb h.2), if_neg (fun h => hb h.2),
        if_neg (fun h => hb h.2)]
      omega

/-- A tilde-free list has no nasal pairs. -/
theorem nasalPairs_eq_zero (X : List Char) (hX : '~' ∉ X) : nasalPairs X = 0 := by
  induction X with
  | nil => rfl
  | cons a t ih =>
    cases t with
    | nil => rfl
    | cons b r =>
      have hb : b ≠ '~' := fun h =>
        hX (h ▸ List.mem_cons_of_mem a (List.mem_cons_self b r))
      have ht : '~' ∉ b :: r := fun h => hX (List.mem_cons_of_mem a h)
      rw [nasalPairs_cons, ih ht, if_neg (fun h => hb h.2)]

/-- Dropping the head cannot increase the pair count. -/
theorem nasalPairs_cons_ge (x : Char) (Y : List Char) :
    nasalPairs Y ≤ nasalPairs (x :: Y) := by
  cases Y with
  | nil => exact Nat.zero_le _
  | cons b r =>
    rw [nasalPairs_cons]
    exact Nat.le_add_left _ _

/-- The pair count of a nonempty list is at most the tail length. -/
theorem nasalPairs_le_tail : ∀ (x : Char) (Y : List Char),
    nasalPairs (x :: Y) ≤ Y.length
  | _, [] => Nat.le_refl 0
  | x, b :: r => by
    have ih := nasalPairs_le_tail b r
    rw [nasalPairs_cons]
    have hind : (if (x = 'a' ∨ x = 'o') ∧ b = '~' then 1 else 0) ≤ 1 := by
      split_ifs <;> omega
    simp only [List.length_cons]
    omega

/-- The pair count never exceeds the length. -/
theorem nasalPairs_le_length (X : List Char) : nasalPairs X ≤ X.length := by
  cases X with
  | nil => exact Nat.le_refl 0
  | cons x t => exact (nasalPairs_le_tail x t).trans (by simp)

/-- Appending `v` adds at most `v.length` pairs. -/
theorem nasalPairs_append_le : ∀ (u v : List Char),
    nasalPairs (u ++ v) ≤ nasalPairs u + v.length
  | [], v => by simpa [nasalPairs_nil] using nasalPairs_le_length v
  | [x], v => by simpa [nasalPairs_single] using nasalPairs_le_tail x v
  | x :: y :: u, v => by
    have ih := nasalPairs_append_le (y :: u) v
    simp only [List.cons_append] at ih ⊢
    rw [nasalPairs_cons, nasalPairs_cons]
    omega

/-- A prefix has at most as many pairs as the whole list. -/
theorem nasalPairs_le_append : ∀ (u v : List Char),
    nasalPairs u ≤ nasalPairs (u ++ v)
  | [], _ => Nat.zero_le _
  | [_], _ => Nat.zero_le _
  | x :: y :: u, v => by
    have ih := nasalPairs_le_append (y :: u) v
    simp only [List.cons_append] at ih ⊢
    rw [nasalPairs_cons, nasalPairs_cons]
    omega

/-- Appending a tilde-free tail leaves the pair count unchanged. -/
theorem nasalPairs_append_no_tilde : ∀ (u v : List Char), '~' ∉ v →
    nasalPairs (u ++ v) = nasalPairs u
  | [], v, hv => by
    rw [List.nil_append, nasalPairs_eq_zero v hv, nasalPairs_nil]
  | [x], v, hv => by
    cases v with
    | nil => rfl
    | cons b r =>
      have hb : b ≠ '~' := fun h => hv (h ▸ List.mem_cons_self b r)
      simp only [List.cons_append, List.nil_append]
      rw [nasalPairs_cons, if_neg (fun h => hb h.2),
        nasalPairs_eq_zero (b :: r) hv, nasalPairs_single]
  | x :: y :: u, v, hv => by
    have ih := nasalPairs_append_no_tilde (y :: u) v hv
    simp only [List.cons_append] at ih ⊢
    rw [nasalPairs_cons, nasalPairs_cons, ih]

/-- ψ-monotonicity of truncation, in additive form. -/
theorem psi_take (X : List Char) (k : Nat) :
    (X.take k).length + nasalPairs X ≤ X.length + nasalPairs (X.take k) := by
  have hsplit : X.take k ++ X.drop k = X := List.take_append_drop k X
  have h1 : nasalPairs X ≤ nasalPairs (X.take k) + (X.drop k).length := by
    calc nasalPairs X = nasalPairs (X.take k ++ X.drop k) := by rw [hsplit]
    _ ≤ _ := nasalPairs_append_le _ _
  have h2 : (X.take k).length + (X.drop k).length = X.length := by
    rw [← List.length_append, hsplit]
  omega

/-- ψ-monotonicity of the Go slice `w[:i]`. -/
theorem psi_sliceTo (X : List Char) (i : Int) :
    (sliceTo X i).length + nasalPairs X ≤
      X.length + nasalPairs (sliceTo X i) :=
  psi_take X i.toNat

/-- Replacing every `v~` digraph by a single character removes exactly
`vPairs v` characters. -/
theorem vrepl_length (v vt : Char) (hv : v ≠ '~') :
    ∀ n (X : List Char), X.length ≤ n →
      (replaceAll X [v, '~'] [vt]).length + vPairs v X = X.length := by
  intro n
  induction n with
  | zero =>
    intro X hX
    have hXn : X = [] := List.eq_nil_of_length_eq_zero (Nat.le_zero.mp hX)
    subst hXn; rfl
  | succ n ih =>
    intro X hX
    cases X with
    | nil => rfl
    | cons c rest =>
      rw [replaceAll_cons]
      by_cases hm : ([v, '~'] : List Char) ≠ [] ∧
          ([v, '~'] : List Char).isPrefixOf (c :: rest)
      · rw [if_pos hm]
        obtain ⟨r2, hrest, hc⟩ : ∃ r2, rest = '~' :: r2 ∧ c = v := by
          cases rest with
          | nil => simp [List.isPrefixOf] at hm
          | cons d r2 =>
            have hp := hm.2
            simp [List.isPrefixOf] at hp
            exact ⟨r2, by rw [hp.2], hp.1.symm⟩
        subst hrest
        rw [hc]
        have hdrop : (v :: '~' :: r2).drop ([v, '~'] : List Char).length = r2 :=
          rfl
        rw [hdrop]
        have hlen2 : r2.length ≤ n := by
          simp only [List.length_cons] at hX; omega
        have h2 := ih r2 hlen2
        rw [vPairs_cons, if_pos ⟨rfl, rfl⟩,
          vPairs_cons_ne v '~' r2 (Ne.symm hv)]
        simp only [List.cons_append, List.nil_append, List.length_cons]
        omega
      · rw [if_neg hm]
        cases rest with
        | nil => rfl
        | cons d r2 =>
          have hind : ¬ (c = v ∧ d = '~') := by
            rintro ⟨h1, h2⟩
            subst h1; subst h2
            exact hm ⟨by simp, by simp [List.isPrefixOf]⟩
          have hlen2 : (d :: r2).length ≤ n := by
            simp only [List.length_cons] at hX ⊢; omega
          have h2 := ih (d :: r2) hlen2
          rw [vPairs_cons, if_neg hind]
          simp only [List.length_cons] at h2 ⊢
          omega

/-- Replacing every `v~` digraph by `vt` leaves the pair count of an
unrelated vowel `w` unchanged. -/
theorem vrepl_other (v vt w : Char) (hv : v ≠ '~') (hw : w ≠ '~')
    (hvw : v ≠ w) (hvtw : vt ≠ w) (hvt : vt ≠ '~') :
    ∀ n (X : List Char), X.length ≤ n →
      vPairs w (replaceAll X [v, '~'] [vt]) = vPairs w X := by
  intro n
  induction n with
  | zero =>
    intro X hX
    have hXn : X = [] := List.eq_nil_of_length_eq_zero (Nat.le_zero.mp hX)
    subst hXn; rfl
  | succ n ih =>
    intro X hX
    cases X with
    | nil => rfl
    | cons c rest =>
      rw [replaceAll_cons]
      by_cases hm : ([v, '~'] : List Char) ≠ [] ∧
          ([v, '~'] : List Char).isPrefixOf (c :: rest)
      · rw [if_pos hm]
        obtain ⟨r2, hrest, hc⟩ : ∃ r2, rest = '~' :: r2 ∧ c = v := by
          cases rest with
          | nil => simp [List.isPrefixOf] at hm
          | cons d r2 =>
            have hp := hm.2
            simp [List.isPrefixOf] at hp
            exact ⟨r2, by rw [hp.2], hp.1.symm⟩
        subst hrest
        rw [hc]
        have hdrop : (v :: '~' :: r2).drop ([v, '~'] : List Char).length = r2 :=
          rfl
        rw [hdrop]
        have hlen2 : r2.length ≤ n := by
          simp only [List.length_cons] at hX; omega
        have h2 := ih r2 hlen2
        rw [show ([vt] ++ replaceAll r2 [v, '~'] [vt]) =
          vt :: replaceAll r2 [v, '~'] [vt] from rfl]
        rw [vPairs_cons_ne w vt _ hvtw, h2, vPairs_cons,
          if_neg (fun h => hvw h.1), vPairs_cons_ne w '~' r2 (Ne.symm hw)]
        omega
      · rw [if_neg hm]
        by_cases hcw : c = w
        · rw [hcw]
          cases rest with
          | nil => rfl
          | cons e r2 =>
            rw [replaceAll_cons]
            by_cases hm2 : ([v, '~'] : List Char) ≠ [] ∧
                ([v, '~'] : List Char).isPrefixOf (e :: r2)
            · rw [if_pos hm2]
              obtain ⟨r3, hr2, he⟩ : ∃ r3, r2 = '~' :: r3 ∧ e = v := by
                cases r2 with
                | nil => simp [List.isPrefixOf] at hm2
                | cons d r3 =>
                  have hp := hm2.2
                  simp [List.isPrefixOf] at hp
                  exact ⟨r3, by rw [hp.2], hp.1.symm⟩
              subst hr2
              rw [he]
              have hdrop : (v :: '~' :: r3).drop
                  ([v, '~'] : List Char).length = r3 := rfl
              rw [hdrop]
              have hlen3 : r3.length ≤ n := by
                simp only [List.length_cons] at hX; omega
              have h3 := ih r3 hlen3
              rw [show (w :: ([vt] ++ replaceAll r3 [v, '~'] [vt])) =
                w :: vt :: replaceAll r3 [v, '~'] [vt] from rfl]
              rw [vPairs_cons, if_neg (fun h => hvt h.2),
                vPairs_cons_ne w vt _ hvtw, h3, vPairs_cons,
                if_neg (fun h => hv h.2), vPairs_cons,
                if_neg (fun h => hvw h.1),
                vPairs_cons_ne w '~' r3 (Ne.symm hw)]
              omega
            · rw [if_neg hm2]
              have hx : replaceAll (e :: r2) [v, '~'] [vt] =
                  e :: replaceAll r2 [v, '~'] [vt] := by
                rw [replaceAll_cons, if_neg hm2]
              have hlen2 : (e :: r2).length ≤ n := by
                simp only [List.length_cons] at hX ⊢; omega
              have h2 := ih (e :: r2) hlen2
              rw [hx] at h2
              rw [vPairs_cons, vPairs_cons, h2]
        · have hlen2 : rest.length ≤ n := by
            simp only [List.length_cons] at hX; omega
          have h2 := ih rest hlen2
          rw [vPairs_cons_ne w c _ hcw, vPairs_cons_ne w c _ hcw, h2]

/-- The nasal contraction removes exactly `nasalPairs` characters. -/
theorem contract_length (X : List Char) :
    (contractNasalisedVowels X).length + nasalPairs X = X.length := by
  have hC : contractNasalisedVowels X =
      replaceAll (replaceAll X ['a', '~'] ['ã']) ['o', '~'] ['õ'] := rfl
  rw [hC, nasalPairs_split X]
  have h1 := vrepl_length 'a' 'ã' (by decide) X.length X (Nat.le_refl _)
  have h2 := vrepl_other 'a' 'ã' 'o' (by decide) (by decide) (by decide)
      (by decide) (by decide) X.length X (Nat.le_refl _)
  have h3 := vrepl_length 'o' 'õ' (by decide)
      (replaceAll X ['a', '~'] ['ã']).length (replaceAll X ['a', '~'] ['ã'])
      (Nat.le_refl _)
  omega

/-- The nasal expansion grows the word by at most the number of pairs it
creates: ψ(expand w) ≤ |w|. -/
theorem expand_length_le (w : List Char) :
    (expandNasalisedVowels w).length ≤
      w.length + nasalPairs (expandNasalisedVowels w) := by
  induction w with
  | nil => simp [expandNasalisedVowels, replaceAll, replaceAllF, nasalPairs]
  | cons c t ih =>
    rw [expand_cons]
    by_cases h1 : c = 'ã'
    · subst h1
      rw [show nasalExpandChar 'ã' = ['a', '~'] from rfl]
      simp only [List.cons_append, List.nil_append, List.length_cons]
      have hp : nasalPairs ('a' :: '~' :: expandNasalisedVowels t) =
          1 + nasalPairs ('~' :: expandNasalisedVowels t) := by
        rw [nasalPairs_cons, if_pos ⟨Or.inl rfl, rfl⟩]
      have hp2 := nasalPairs_cons_ge '~' (expandNasalisedVowels t)
      omega
    · by_cases h2 : c = 'õ'
      · subst h2
        rw [show nasalExpandChar 'õ' = ['o', '~'] from rfl]
        simp only [List.cons_append, List.nil_append, List.length_cons]
        have hp : nasalPairs ('o' :: '~' :: expandNasalisedVowels t) =
            1 + nasalPairs ('~' :: expandNasalisedVowels t) := by
          rw [nasalPairs_cons, if_pos ⟨Or.inr rfl, rfl⟩]
        have hp2 := nasalPairs_cons_ge '~' (expandNasalisedVowels t)
        omega
      · rw [show nasalExpandChar c = [c] from by simp [nasalExpandChar, h1, h2]]
        simp only [List.cons_append, List.nil_append, List.length_cons]
        have hp2 := nasalPairs_cons_ge c (expandNasalisedVowels t)
        omega

/-- ψ-monotonicity of any prefix, in additive form. -/
theorem psi_prefix (X u : List Char) (h : u <+: X) :
    u.length + nasalPairs X ≤ X.length + nasalPairs u := by
  obtain ⟨t, ht⟩ := h
  subst ht
  have h1 := nasalPairs_append_le u t
  simp only [List.length_append]
  omega

/-- ψ-inequalities chain transitively. -/
theorem psi_trans (X Y Z : List Char)
    (h1 : Y.length + nasalPairs X ≤ X.length + nasalPairs Y)
    (h2 : Z.length + nasalPairs Y ≤ Y.length + nasalPairs Z) :
    Z.length + nasalPairs X ≤ X.length + nasalPairs Z := by omega

/-- ψ-monotonicity of a tilde-free trailing replacement that does not
lengthen the word: the trailing `s` of `X = u ++ s` is replaced by
`add`, both tilde-free with `add` no longer than `s`. -/
theorem psi_replace (u s add : List Char) (hs : '~' ∉ s) (ha : '~' ∉ add)
    (hlen : add.length ≤ s.length) :
    (u ++ add).length + nasalPairs (u ++ s) ≤
      (u ++ s).length + nasalPairs (u ++ add) := by
  rw [nasalPairs_append_no_tilde u s hs, nasalPairs_append_no_tilde u add ha]
  simp only [List.length_append]
  omega

/-- A nonempty step-1 lookup result is a registered step-1 entry. -/
theorem step1Tree_mem (q : List Char)
    (h0 : (step1SuffixTree.longestSuffix q).1 ≠ []) :
    ((step1SuffixTree.longestSuffix q).1,
      (step1SuffixTree.longestSuffix q).2) ∈ step1Entries := by
  by_cases hm : ∃ e ∈ step1Entries, e.1 <:+ q
  · obtain ⟨s, g, hres, _, hmem, _, _⟩ :=
      (longestSuffix_correct step1Entries q (by decide)).2 hm
    have hres' : step1SuffixTree.longestSuffix q = (s, g) := hres
    rw [hres']
    exact hmem
  · have hempty : step1SuffixTree.longestSuffix q = ([], -1) :=
      (longestSuffix_correct step1Entries q (by decide)).1 hm
    rw [hempty] at h0
    exact absurd rfl h0

/-- ψ-monotonicity of `step1` when the R2 region passed in is a trailing
substring of the word: the step never lengthens the word by more than
the nasal pairs it destroys (in fact all its replacements shorten). -/
theorem step1_psi (word r1 r2 rvp : List Char) (h2w : r2 <:+ word) :
    (step1 word r1 r2 rvp).1.length + nasalPairs word ≤
      word.length + nasalPairs (step1 word r1 r2 rvp).1 := by
  have hmem0 := step1Tree_mem word
  simp only [step1]
  generalize hsg : step1SuffixTree.longestSuffix word = sg at hmem0 ⊢
  obtain ⟨s, g⟩ := sg
  dsimp only at hmem0 ⊢
  by_cases h0 : s = []
  · rw [if_pos h0]
  rw [if_neg h0]
  have hmem : (s, g) ∈ step1Entries := hmem0 h0
  by_cases hg0 : g = 0
  · rw [if_pos hg0]
    by_cases hr : hasSuffix r2 s = true
    · rw [if_pos hr]
      exact psi_sliceTo word _
    · rw [if_neg hr]
  rw [if_neg hg0]
  by_cases hg1 : g = 1
  · rw [if_pos hg1]
    by_cases hr : hasSuffix r2 s = true
    · rw [if_pos hr]
      have hsw : s <:+ word := (hasSuffix_iff.mp hr).trans h2w
      obtain ⟨u, hu⟩ := hsw
      have hres : sliceTo word (lastIndex word s) = u :=
        sliceTo_lastIndex_of_suffix h0 hu.symm
      have hfacts : 3 ≤ s.length ∧ '~' ∉ s := by
        have hall : ∀ e ∈ step1Entries, e.2 = 1 →
            3 ≤ e.1.length ∧ '~' ∉ e.1 := by decide
        exact hall (s, g) hmem hg1
      show (sliceTo word (lastIndex word s) ++ "log".data).length +
          nasalPairs word ≤ word.length +
          nasalPairs (sliceTo word (lastIndex word s) ++ "log".data)
      rw [hres, ← hu]
      exact psi_replace u s "log".data hfacts.2 (by decide)
        (by have := hfacts.1; simpa using this)
    · rw [if_neg hr]
  rw [if_neg hg1]
  by_cases hg2 : g = 2
  · rw [if_pos hg2]
    by_cases hr : hasSuffix r2 s = true
    · rw [if_pos hr]
      have hsw : s <:+ word := (hasSuffix_iff.mp hr).trans h2w
      obtain ⟨u, hu⟩ := hsw
      have hres : sliceTo word (lastIndex word s) = u :=
        sliceTo_lastIndex_of_suffix h0 hu.symm
      have hfacts : 1 ≤ s.length ∧ '~' ∉ s := by
        have hall : ∀ e ∈ step1Entries, e.2 = 2 →
            1 ≤ e.1.length ∧ '~' ∉ e.1 := by decide
        exact hall (s, g) hmem hg2
      show (sliceTo word (lastIndex word s) ++ "u".data).length +
          nasalPairs word ≤ word.length +
          nasalPairs (sliceTo word (lastIndex word s) ++ "u".data)
      rw [hres, ← hu]
      exact psi_replace u s "u".data hfacts.2 (by decide)
        (by have := hfacts.1; simpa using this)
    · rw [if_neg hr]
  rw [if_neg hg2]
  by_cases hg3 : g = 3
  · rw [if_pos hg3]
    by_cases hr : hasSuffix r2 s = true
    · rw [if_pos hr]
      have hsw : s <:+ word := (hasSuffix_iff.mp hr).trans h2w
      obtain ⟨u, hu⟩ := hsw
      have hres : sliceTo word (lastIndex word s) = u :=
        sliceTo_lastIndex_of_suffix h0 hu.symm
      have hfacts : 4 ≤ s.length ∧ '~' ∉ s := by
        have hall : ∀ e ∈ step1Entries, e.2 = 3 →
            4 ≤ e.1.length ∧ '~' ∉ e.1 := by decide
        exact hall (s, g) hmem hg3
      show (sliceTo word (lastIndex word s) ++ "ente".data).length +
          nasalPairs word ≤ word.length +
          nasalPairs (sliceTo word (lastIndex word s) ++ "ente".data)
      rw [hres, ← hu]
      exact psi_replace u s "ente".data hfacts.2 (by decide)
        (by have := hfacts.1; simpa using this)
    · rw [if_neg hr]
  rw [if_neg hg3]
  by_cases hg4 : g = 4
  · rw [if_pos hg4]
    by_cases hp : hasSuffix r1 s = true
    · rw [if_pos hp]
      have q0 := psi_sliceTo word (lastIndex word s)
      split_ifs with hiv hat hos hic had
      · exact psi_trans word _ _ (psi_trans word _ _ q0 (psi_sliceTo _ _))
          (psi_sliceTo _ _)
      · exact psi_trans word _ _ q0 (psi_sliceTo _ _)
      · exact psi_trans word _ _ q0 (psi_sliceTo _ _)
      · exact psi_trans word _ _ q0 (psi_sliceTo _ _)
      · exact psi_trans word _ _ q0 (psi_sliceTo _ _)
      · exact q0
    · rw [if_neg hp]
      split_ifs with hiv hat hos hic had
      · exact psi_trans word _ _ (psi_sliceTo _ _) (psi_sliceTo _ _)
      · exact psi_sliceTo _ _
      · exact psi_sliceTo _ _
      · exact psi_sliceTo _ _
      · exact psi_sliceTo _ _
      · exact Nat.le_refl _
  rw [if_neg hg4]
  by_cases hg5 : g = 5
  · rw [if_pos hg5]
    split_ifs with ha1 ha2 ha3 ha4
    · exact psi_sliceTo _ _
    · exact psi_sliceTo _ _
    · exact psi_sliceTo _ _
    · exact psi_sliceTo _ _
    · exact Nat.le_refl _
  rw [if_neg hg5]
  by_cases hg6 : g = 6
  · rw [if_pos hg6]
    split_ifs with ha1 ha2 ha3 ha4
    · exact psi_sliceTo _ _
    · exact psi_sliceTo _ _
    · exact psi_sliceTo _ _
    · exact psi_sliceTo _ _
    · exact Nat.le_refl _
  rw [if_neg hg6]
  by_cases hg7 : g = 7
  · rw [if_pos hg7]
    split_ifs with ha1 ha2
    · exact psi_sliceTo _ _
    · exact psi_sliceTo _ _
    · exact Nat.le_refl _
  rw [if_neg hg7]
  by_cases hg8 : g = 8
  · rw [if_pos hg8]
    by_cases hrv8 : hasSuffix rvp s = true
    · rw [if_pos hrv8]
      by_cases he : hasSuffix word ("e".data ++ s) = true
      · rw [if_pos he]
        have hsw : s <:+ word :=
          (List.suffix_append "e".data s).trans (hasSuffix_iff.mp he)
        obtain ⟨u, hu⟩ := hsw
        have hres : sliceTo word (lastIndex word s) = u :=
          sliceTo_lastIndex_of_suffix h0 hu.symm
        have hfacts : 2 ≤ s.length ∧ '~' ∉ s := by
          have hall : ∀ e ∈ step1Entries, e.2 = 8 →
              2 ≤ e.1.length ∧ '~' ∉ e.1 := by decide
          exact hall (s, g) hmem hg8
        show (sliceTo word (lastIndex word s) ++ "ir".data).length +
            nasalPairs word ≤ word.length +
            nasalPairs (sliceTo word (lastIndex word s) ++ "ir".data)
        rw [hres, ← hu]
        exact psi_replace u s "ir".data hfacts.2 (by decide)
          (by have := hfacts.1; simpa using this)
      · rw [if_neg he]
    · rw [if_neg hrv8]
  rw [if_neg hg8]

/-- ψ-monotonicity of `step2`: it only truncates. -/
theorem step2_psi (word r1 r2 rvp : List Char) :
    (step2 word r1 r2 rvp).1.length + nasalPairs word ≤
      word.length + nasalPairs (step2 word r1 r2 rvp).1 := by
  simp only [step2]
  by_cases h : (step2SuffixTree.longestSuffix rvp).1 = []
  · rw [if_pos h]
  · rw [if_neg h]
    exact psi_sliceTo word _

/-- ψ-monotonicity of `step3`: it only drops the last character. -/
theorem step3_psi (word r1 r2 rvp : List Char) :
    (step3 word r1 r2 rvp).1.length + nasalPairs word ≤
      word.length + nasalPairs (step3 word r1 r2 rvp).1 := by
  simp only [step3]
  split_ifs with h
  · exact psi_prefix word word.dropLast (List.dropLast_prefix word)
  · exact Nat.le_refl _

/-- ψ-monotonicity of `step4`: it only truncates. -/
theorem step4_psi (word r1 r2 rvp : List Char) :
    (step4 word r1 r2 rvp).1.length + nasalPairs word ≤
      word.length + nasalPairs (step4 word r1 r2 rvp).1 := by
  simp only [step4]
  by_cases h : (step4SuffixTree.longestSuffix rvp).1 = []
  · rw [if_pos h]
  · rw [if_neg h]
    exact psi_sliceTo word _

/-- ψ-monotonicity of `step5`: every branch truncates except the
cedilla rewrite, which swaps one trailing 'ç' for 'c'. -/
theorem step5_psi (word r1 r2 rvp : List Char) :
    (step5 word r1 r2 rvp).1.length + nasalPairs word ≤
      word.length + nasalPairs (step5 word r1 r2 rvp).1 := by
  simp only [step5]
  by_cases h : (step5SuffixTree.longestSuffix rvp).1 = []
  · rw [if_pos h]
    by_cases hc : hasSuffix word "ç".data = true
    · rw [if_pos hc]
      obtain ⟨u, hu⟩ := hasSuffix_iff.mp hc
      have hres : sliceTo word (lastIndex word "ç".data) = u :=
        sliceTo_lastIndex_of_suffix (by decide) hu.symm
      show (sliceTo word (lastIndex word "ç".data) ++ "c".data).length +
          nasalPairs word ≤ word.length +
          nasalPairs (sliceTo word (lastIndex word "ç".data) ++ "c".data)
      rw [hres, ← hu]
      exact psi_replace u "ç".data "c".data (by decide) (by decide) (by decide)
    · rw [if_neg hc]
  · rw [if_neg h]
    split_ifs with h1 h2
    · exact psi_sliceTo word _
    · exact psi_sliceTo word _
    · exact psi_sliceTo word _

/-- C10: the stem is never longer than the input word in runes.  Every
step only deletes, or substitutes a replacement that does not increase
ψ = length − nasalPairs; the marker characters added by the initial
expansion are exactly removed again by the final contraction. -/
theorem stem_never_grows (w : List Char) : (Stem w).length ≤ w.length := by
  simp only [Stem]
  have hexp := expand_length_le w
  have P1 := step1_psi (expandNasalisedVowels w) (r (expandNasalisedVowels w))
    (r (r (expandNasalisedVowels w))) (rv (expandNasalisedVowels w))
    ((r_suffix _).trans (r_suffix _))
  generalize hs1 : step1 (expandNasalisedVowels w) (r (expandNasalisedVowels w))
    (r (r (expandNasalisedVowels w))) (rv (expandNasalisedVowels w)) = s1
    at P1 ⊢
  obtain ⟨w1, m1⟩ := s1
  dsimp only at P1
  cases m1 with
  | true =>
    simp only [if_pos rfl, if_true]
    have P3 := step3_psi w1 (r w1) (r (r w1)) (rv w1)
    generalize hs3 : step3 w1 (r w1) (r (r w1)) (rv w1) = s3 at P3 ⊢
    obtain ⟨w3, m3⟩ := s3
    dsimp only at P3
    cases m3 with
    | true =>
      simp only [if_pos rfl, if_true]
      have P5 := step5_psi w3 (r w3) (r (r w3)) (rv w3)
      have hC := contract_length (step5 w3 (r w3) (r (r w3)) (rv w3)).1
      omega
    | false =>
      simp only [Bool.false_eq_true, if_false]
      have P5 := step5_psi w3 (r w1) (r (r w1)) (rv w1)
      have hC := contract_length (step5 w3 (r w1) (r (r w1)) (rv w1)).1
      omega
  | false =>
    simp only [Bool.false_eq_true, if_false]
    have P2 := step2_psi w1 (r (expandNasalisedVowels w))
      (r (r (expandNasalisedVowels w))) (rv (expandNasalisedVowels w))
    generalize hs2 : step2 w1 (r (expandNasalisedVowels w))
      (r (r (expandNasalisedVowels w))) (rv (expandNasalisedVowels w)) = s2
      at P2 ⊢
    obtain ⟨w2, m2⟩ := s2
    dsimp only at P2
    cases m2 with
    | true =>
      simp only [if_pos rfl, if_true]
      have P3 := step3_psi w2 (r w2) (r (r w2)) (rv w2)
      generalize hs3 : step3 w2 (r w2) (r (r w2)) (rv w2) = s3 at P3 ⊢
      obtain ⟨w3, m3⟩ := s3
      dsimp only at P3
      cases m3 with
      | true =>
        simp only [if_pos rfl, if_true]
        have P5 := step5_psi w3 (r w3) (r (r w3)) (rv w3)
        have hC := contract_length (step5 w3 (r w3) (r (r w3)) (rv w3)).1
        omega
      | false =>
        simp only [Bool.false_eq_true, if_false]
        have P5 := step5_psi w3 (r w2) (r (r w2)) (rv w2)
        have hC := contract_length (step5 w3 (r w2) (r (r w2)) (rv w2)).1
        omega
    | false =>
      simp only [Bool.false_eq_true, if_false]
      have P4 := step4_psi w2 (r (expandNasalisedVowels w))
        (r (r (expandNasalisedVowels w))) (rv (expandNasalisedVowels w))
      generalize hs4 : step4 w2 (r (expandNasalisedVowels w))
        (r (r (expandNasalisedVowels w))) (rv (expandNasalisedVowels w)) = s4
        at P4 ⊢
      obtain ⟨w4, m4⟩ := s4
      dsimp only at P4
      cases m4 with
      | true =>
        simp only [if_pos rfl, if_true]
        have P5 := step5_psi w4 (r w4) (r (r w4)) (rv w4)
        have hC := contract_length (step5 w4 (r w4) (r (r w4)) (rv w4)).1
        omega
      | false =>
        simp only [Bool.false_eq_true, if_false]
        have P5 := step5_psi w4 (r (expandNasalisedVowels w))
          (r (r (expandNasalisedVowels w))) (rv (expandNasalisedVowels w))
        have hC := contract_length (step5 w4 (r (expandNasalisedVowels w))
          (r (r (expandNasalisedVowels w))) (rv (expandNasalisedVowels w))).1
        omega

end Ptstemmer

